import Mathlib

/-!
Verification of the release-utils repository: a shallow embedding of the
version-comparison, service-mapping, env-file parsing, version-json parsing
and ticket-extraction code, together with theorems settling the spec claims.

Python dictionaries are modelled as association lists in insertion order with
unique keys (`insertD` updates in place when the key exists, appends
otherwise); Python sets are modelled as lists used only through membership.
-/

namespace ReleaseUtils

/-- Model of Python `dict` assignment `m[k] = v`: update the (unique) existing
entry in place, or append a fresh one at the end. -/
def insertD {α : Type} : List (String × α) → String → α → List (String × α)
  | [], k, v => [(k, v)]
  | p :: m, k, v => if p.1 = k then (k, v) :: m else p :: insertD m k v

/-- Model of Python `m.get(k)` / `k in m` lookup on a dict. -/
def lookupD {α : Type} : List (String × α) → String → Option α
  | [], _ => none
  | p :: m, k => if p.1 = k then some p.2 else lookupD m k

/-- The keys of a dict, in insertion order. -/
def keysD {α : Type} (m : List (String × α)) : List String := m.map Prod.fst

/-- Model of Python `set.add`. -/
def setAdd (s : List String) (x : String) : List String :=
  if x ∈ s then s else s ++ [x]

/-- Model of Python `str.lower()` (ASCII case folding). -/
def pyLower (s : String) : String := String.mk (s.data.map Char.toLower)

/-! ## service_mapping.py -/

/-- `ServiceMapper.SERVICE_NAME_MAPPING`: .env service names (lowercase) to
version.json service names; `none` marks an explicit "not in version.json"
entry.  The Python literal repeats the `stackgen_notifications` key with the
same value; the resulting dict holds it once. -/
def SERVICE_NAME_MAPPING : List (String × Option String) := [
  ("appcd", some "appcd"),
  ("iacgen", some "iac-gen"),
  ("appcdui", some "ui"),
  ("stack_exporter", some "exporter"),
  ("stackgen_vault", some "vault"),
  ("integrations", some "integrations"),
  ("backstage_adapter", some "backstage-adapter"),
  ("infra_catalog_tracker", some "infra-catalog-tracker"),
  ("deployment_manager", some "deployment-manager"),
  ("stackgen_notifications", some "notifications"),
  ("tf_module_service", some "tf-module-service"),
  ("audit_manager", some "audit-manager"),
  ("sgai_orchestration", some "sgai-orchestration"),
  ("appcd_analyzer", none),
  ("appcdvira", none),
  ("llm_gateway", none),
  ("sgai_knowledge", none),
  ("sgai_control", none),
  ("community_infra_gen", none),
  ("stackgen_subagents", none)
]

/-- `ServiceMapper.map_env_to_deployed`: `.get` yields `None` both for a
missing key and for an explicit `None` value, and in both cases the function
returns `None`; a truthy (non-empty) mapped name is returned as is, a falsy
(empty) one falls back to the lowercased input. -/
def map_env_to_deployed (env_service_name : String) : Option String :=
  match lookupD SERVICE_NAME_MAPPING (pyLower env_service_name) with
  | none => none
  | some none => none
  | some (some mapped) => some (if mapped = "" then pyLower env_service_name else mapped)

/-- One unified comparison record (`create_unified_comparison` value dict). -/
structure ServiceRecord where
  env_version : Option String
  deployed_version : Option String
  env_name : Option String
  deployed_name : Option String
deriving DecidableEq, Repr

/-- The record `create_unified_comparison` stores for an `.env` entry. -/
def envRecord (deployed_versions : List (String × String)) (p : String × String) :
    ServiceRecord :=
  match map_env_to_deployed p.1 with
  | none => ⟨some p.2, none, some p.1, none⟩
  | some deployed_service =>
      ⟨some p.2, lookupD deployed_versions deployed_service, some p.1, some deployed_service⟩

/-- The set of deployed-convention names referenced by some `.env` key
(`mapped_deployed_services` in `create_unified_comparison`); only truthy
(non-`None`, non-empty) mapped names are added. -/
def mapped_deployed_services (env_versions : List (String × String)) : List String :=
  env_versions.foldl (fun s p =>
    match map_env_to_deployed p.1 with
    | none => s
    | some ds => if ds = "" then s else setAdd s ds) []

/-- One iteration of the `.env` loop of `create_unified_comparison`. -/
def envStep (deployed_versions : List (String × String))
    (unified : List (String × ServiceRecord)) (p : String × String) :
    List (String × ServiceRecord) :=
  insertD unified p.1 (envRecord deployed_versions p)

/-- One iteration of the deployed loop of `create_unified_comparison`. -/
def deployedStep (env_versions : List (String × String))
    (unified : List (String × ServiceRecord)) (p : String × String) :
    List (String × ServiceRecord) :=
  if p.1 ∈ mapped_deployed_services env_versions then unified
  else insertD unified ("deployed_only_" ++ p.1) ⟨none, some p.2, none, some p.1⟩

/-- `ServiceMapper.create_unified_comparison`: first one record per `.env`
entry, then a `deployed_only_<name>` record for every deployed entry whose
name no `.env` key maps to. -/
def create_unified_comparison (env_versions deployed_versions : List (String × String)) :
    List (String × ServiceRecord) :=
  deployed_versions.foldl (deployedStep env_versions)
    (env_versions.foldl (envStep deployed_versions) [])

/-! ## compare_versions.py: VersionComparator.compare_versions -/

/-- The four classification buckets of `compare_versions`. -/
structure ComparisonResults where
  differences : List (String × ServiceRecord)
  -- `matches` in the Python dict; `matches` is reserved in Lean
  matched : List (String × ServiceRecord)
  env_only : List (String × ServiceRecord)
  deployed_only : List (String × ServiceRecord)
deriving DecidableEq, Repr

/-- One iteration of the classification loop of `compare_versions`. -/
def classifyStep (acc : ComparisonResults) (p : String × ServiceRecord) :
    ComparisonResults :=
  match p.2.env_version, p.2.deployed_version with
  | none, _ => { acc with deployed_only := insertD acc.deployed_only p.1 p.2 }
  | some _, none => { acc with env_only := insertD acc.env_only p.1 p.2 }
  | some env_ver, some deployed_ver =>
      if env_ver ≠ deployed_ver then
        { acc with differences := insertD acc.differences p.1 p.2 }
      else
        { acc with matched := insertD acc.matched p.1 p.2 }

/-- `VersionComparator.compare_versions`: classify every unified record and
report whether any difference bucket is non-empty. -/
def compare_versions (deployed_versions repo_versions : List (String × String)) :
    ComparisonResults × Bool :=
  let unified := create_unified_comparison repo_versions deployed_versions
  let results := unified.foldl classifyStep ⟨[], [], [], []⟩
  (results,
    !results.differences.isEmpty || !results.env_only.isEmpty ||
      !results.deployed_only.isEmpty)

/-! ## Dictionary lemmas -/

theorem lookupD_insertD_self {α : Type} (m : List (String × α)) (k : String) (v : α) :
    lookupD (insertD m k v) k = some v := by
  induction m with
  | nil => simp [insertD, lookupD]
  | cons p m ih =>
    by_cases h : p.1 = k
    · simp [insertD, h, lookupD]
    · simp [insertD, h, lookupD, ih]

theorem lookupD_insertD_ne {α : Type} (m : List (String × α)) {k k' : String} (v : α)
    (h : k' ≠ k) : lookupD (insertD m k' v) k = lookupD m k := by
  induction m with
  | nil => simp [insertD, lookupD, h]
  | cons p m ih =>
    by_cases hp : p.1 = k'
    · simp [insertD, hp, lookupD, h, hp ▸ h]
    · simp [insertD, hp, lookupD, ih]

theorem keysD_insertD {α : Type} (m : List (String × α)) (k : String) (v : α) :
    keysD (insertD m k v) = if k ∈ keysD m then keysD m else keysD m ++ [k] := by
  induction m with
  | nil => simp [insertD, keysD]
  | cons p m ih =>
    by_cases h : p.1 = k
    · simp [insertD, h, keysD]
    · have : ¬k = p.1 := fun hk => h hk.symm
      simp only [insertD, if_neg h, keysD, List.map_cons, List.mem_cons, this, false_or]
      rw [keysD] at ih
      rw [ih]
      by_cases hm : k ∈ m.map Prod.fst <;> simp [hm, keysD]

theorem mem_keysD_insertD {α : Type} (m : List (String × α)) (k k' : String) (v : α) :
    k ∈ keysD (insertD m k' v) ↔ k ∈ keysD m ∨ k = k' := by
  rw [keysD_insertD]
  by_cases h : k' ∈ keysD m
  · simp only [if_pos h]
    constructor
    · exact Or.inl
    · rintro (hk | rfl) <;> [exact hk; exact h]
  · simp [if_neg h]

theorem keysD_nodup_insertD {α : Type} {m : List (String × α)} (k : String) (v : α)
    (h : (keysD m).Nodup) : (keysD (insertD m k v)).Nodup := by
  rw [keysD_insertD]
  by_cases hm : k ∈ keysD m
  · simpa [hm] using h
  · simp [hm, List.nodup_append, h]

theorem insertD_of_not_mem {α : Type} {m : List (String × α)} {k : String} (v : α)
    (h : k ∉ keysD m) : insertD m k v = m ++ [(k, v)] := by
  induction m with
  | nil => simp [insertD]
  | cons p m ih =>
    simp only [keysD, List.map_cons, List.mem_cons] at h
    push_neg at h
    have : ¬p.1 = k := fun hk => h.1 hk.symm
    simp only [insertD, if_neg this, List.cons_append, List.cons.injEq, true_and]
    exact ih (by simpa [keysD] using h.2)

theorem mem_insertD {α : Type} {m : List (String × α)} {k : String} {v : α}
    {p : String × α} (h : p ∈ insertD m k v) : p ∈ m ∨ p = (k, v) := by
  induction m with
  | nil => simpa [insertD] using h
  | cons q m ih =>
    by_cases hq : q.1 = k
    · simp only [insertD, if_pos hq, List.mem_cons] at h
      rcases h with h | h
      · exact Or.inr h
      · exact Or.inl (List.mem_cons_of_mem _ h)
    · simp only [insertD, if_neg hq, List.mem_cons] at h
      rcases h with h | h
      · exact Or.inl (h ▸ List.mem_cons_self _ _)
      · rcases ih h with h | h
        · exact Or.inl (List.mem_cons_of_mem _ h)
        · exact Or.inr h

/-! ## Invariants of `create_unified_comparison` -/

theorem envRecord_env_version (deployed_versions : List (String × String))
    (p : String × String) : (envRecord deployed_versions p).env_version = some p.2 := by
  unfold envRecord
  cases map_env_to_deployed p.1 <;> rfl

theorem envFold_nodup (deployed_versions : List (String × String)) :
    ∀ (l : List (String × String)) (acc : List (String × ServiceRecord)),
      (keysD acc).Nodup → (keysD (l.foldl (envStep deployed_versions) acc)).Nodup := by
  intro l
  induction l with
  | nil => exact fun acc h => h
  | cons p t ih =>
    intro acc h
    exact ih _ (keysD_nodup_insertD _ _ h)

theorem deployedFold_nodup (env_versions : List (String × String)) :
    ∀ (l : List (String × String)) (acc : List (String × ServiceRecord)),
      (keysD acc).Nodup → (keysD (l.foldl (deployedStep env_versions) acc)).Nodup := by
  intro l
  induction l with
  | nil => exact fun acc h => h
  | cons p t ih =>
    intro acc h
    unfold deployedStep
    by_cases hm : p.1 ∈ mapped_deployed_services env_versions
    · simpa [hm] using ih _ h
    · simpa [hm] using ih _ (keysD_nodup_insertD _ _ h)

theorem unified_keys_nodup (env_versions deployed_versions : List (String × String)) :
    (keysD (create_unified_comparison env_versions deployed_versions)).Nodup := by
  unfold create_unified_comparison
  exact deployedFold_nodup _ _ _ (envFold_nodup _ _ _ (by simp [keysD]))

theorem insertD_values {α : Type} (P : String × α → Prop) {m : List (String × α)}
    {k : String} {v : α} (hm : ∀ p ∈ m, P p) (hv : P (k, v)) :
    ∀ p ∈ insertD m k v, P p := by
  intro p hp
  rcases mem_insertD hp with h | rfl
  · exact hm p h
  · exact hv

/-- Every record of a unified comparison has its env version or its deployed
version present (env records carry `some env_version`, deployed-only records
carry `some deployed_version`). -/
theorem unified_values_good (env_versions deployed_versions : List (String × String)) :
    ∀ p ∈ create_unified_comparison env_versions deployed_versions,
      p.2.env_version ≠ none ∨ p.2.deployed_version ≠ none := by
  unfold create_unified_comparison
  have h1 : ∀ (l : List (String × String)) (acc : List (String × ServiceRecord)),
      (∀ p ∈ acc, p.2.env_version ≠ none ∨ p.2.deployed_version ≠ none) →
      ∀ p ∈ l.foldl (envStep deployed_versions) acc,
        p.2.env_version ≠ none ∨ p.2.deployed_version ≠ none := by
    intro l
    induction l with
    | nil => exact fun acc h => h
    | cons q t ih =>
      intro acc h
      refine ih _ (insertD_values _ h ?_)
      left
      simp [envRecord_env_version]
  have h2 : ∀ (l : List (String × String)) (acc : List (String × ServiceRecord)),
      (∀ p ∈ acc, p.2.env_version ≠ none ∨ p.2.deployed_version ≠ none) →
      ∀ p ∈ l.foldl (deployedStep env_versions) acc,
        p.2.env_version ≠ none ∨ p.2.deployed_version ≠ none := by
    intro l
    induction l with
    | nil => exact fun acc h => h
    | cons q t ih =>
      intro acc h
      unfold deployedStep
      by_cases hm : q.1 ∈ mapped_deployed_services env_versions
      · simpa [hm] using ih _ h
      · rw [List.foldl_cons, if_neg hm]
        refine ih _ (insertD_values _ h ?_)
        right
        simp
  exact h2 _ _ (h1 _ _ (by simp))

/-! ## Classification of unified records -/

/-- Both versions present and unequal. -/
def isDiffering (r : ServiceRecord) : Bool :=
  match r.env_version, r.deployed_version with
  | some e, some d => decide (e ≠ d)
  | _, _ => false

/-- Both versions present and equal. -/
def isMatched (r : ServiceRecord) : Bool :=
  match r.env_version, r.deployed_version with
  | some e, some d => decide (e = d)
  | _, _ => false

/-- Env version present, deployed version absent. -/
def isEnvOnly (r : ServiceRecord) : Bool :=
  match r.env_version, r.deployed_version with
  | some _, none => true
  | _, _ => false

/-- Env version absent. -/
def isDeployedOnly (r : ServiceRecord) : Bool :=
  match r.env_version with
  | none => true
  | some _ => false

theorem keysD_append {α : Type} (m n : List (String × α)) :
    keysD (m ++ n) = keysD m ++ keysD n := by simp [keysD]

/-- The classification loop of `compare_versions` filters the unified list
into the four buckets, provided its keys are distinct and fresh. -/
theorem classify_foldl :
    ∀ (l : List (String × ServiceRecord)) (acc : ComparisonResults),
      (keysD l).Nodup →
      (∀ k ∈ keysD l, k ∉ keysD acc.differences ∧ k ∉ keysD acc.matched ∧
        k ∉ keysD acc.env_only ∧ k ∉ keysD acc.deployed_only) →
      l.foldl classifyStep acc =
        ⟨acc.differences ++ l.filter (fun p => isDiffering p.2),
         acc.matched ++ l.filter (fun p => isMatched p.2),
         acc.env_only ++ l.filter (fun p => isEnvOnly p.2),
         acc.deployed_only ++ l.filter (fun p => isDeployedOnly p.2)⟩ := by
  intro l
  induction l with
  | nil =>
    intro acc _ _
    simp
  | cons p t ih =>
    intro acc hnodup hdisj
    have hcons := List.nodup_cons.mp (show (p.1 :: keysD t).Nodup from hnodup)
    have hkey : p.1 ∉ keysD t := hcons.1
    have hnodup' : (keysD t).Nodup := hcons.2
    have hdp := hdisj p.1 (by simp [keysD])
    have hne : ∀ k ∈ keysD t, k ≠ p.1 := fun k hk hkp => hkey (hkp ▸ hk)
    rcases he : p.2.env_version with _ | e
    · -- env version absent: deployed_only bucket
      have hstep : classifyStep acc p =
          { acc with deployed_only := acc.deployed_only ++ [p] } := by
        unfold classifyStep
        rw [he, insertD_of_not_mem _ hdp.2.2.2]
      have hdisj' : ∀ k ∈ keysD t, k ∉ keysD acc.differences ∧ k ∉ keysD acc.matched ∧
          k ∉ keysD acc.env_only ∧ k ∉ keysD (acc.deployed_only ++ [p]) := by
        intro k hk
        have h2 := hdisj k (by simp [keysD] at hk ⊢; exact Or.inr hk)
        refine ⟨h2.1, h2.2.1, h2.2.2.1, ?_⟩
        rw [keysD_append]
        simp only [List.mem_append]
        rintro (h | h)
        · exact h2.2.2.2 h
        · exact hne k hk (by simpa [keysD] using h)
      rw [List.foldl_cons, hstep, ih _ hnodup' hdisj']
      have f1 : isDiffering p.2 = false := by simp [isDiffering, he]
      have f2 : isMatched p.2 = false := by simp [isMatched, he]
      have f3 : isEnvOnly p.2 = false := by simp [isEnvOnly, he]
      have f4 : isDeployedOnly p.2 = true := by simp [isDeployedOnly, he]
      simp [List.filter_cons, f1, f2, f3, f4]
    · rcases hd : p.2.deployed_version with _ | d
      · -- env present, deployed absent: env_only bucket
        have hstep : classifyStep acc p =
            { acc with env_only := acc.env_only ++ [p] } := by
          unfold classifyStep
          rw [he, hd, insertD_of_not_mem _ hdp.2.2.1]
        have hdisj' : ∀ k ∈ keysD t, k ∉ keysD acc.differences ∧ k ∉ keysD acc.matched ∧
            k ∉ keysD (acc.env_only ++ [p]) ∧ k ∉ keysD acc.deployed_only := by
          intro k hk
          have h2 := hdisj k (by simp [keysD] at hk ⊢; exact Or.inr hk)
          refine ⟨h2.1, h2.2.1, ?_, h2.2.2.2⟩
          rw [keysD_append]
          simp only [List.mem_append]
          rintro (h | h)
          · exact h2.2.2.1 h
          · exact hne k hk (by simpa [keysD] using h)
        rw [List.foldl_cons, hstep, ih _ hnodup' hdisj']
        have f1 : isDiffering p.2 = false := by simp [isDiffering, he, hd]
        have f2 : isMatched p.2 = false := by simp [isMatched, he, hd]
        have f3 : isEnvOnly p.2 = true := by simp [isEnvOnly, he, hd]
        have f4 : isDeployedOnly p.2 = false := by simp [isDeployedOnly, he]
        simp [List.filter_cons, f1, f2, f3, f4]
      · by_cases heq : e = d
        · -- equal versions: matched bucket
          have hstep : classifyStep acc p =
              { acc with matched := acc.matched ++ [p] } := by
            unfold classifyStep
            rw [he, hd]
            simp only [heq, ne_eq, not_true_eq_false, if_false, ite_false]
            rw [insertD_of_not_mem _ hdp.2.1]
          have hdisj' : ∀ k ∈ keysD t, k ∉ keysD acc.differences ∧
              k ∉ keysD (acc.matched ++ [p]) ∧
              k ∉ keysD acc.env_only ∧ k ∉ keysD acc.deployed_only := by
            intro k hk
            have h2 := hdisj k (by simp [keysD] at hk ⊢; exact Or.inr hk)
            refine ⟨h2.1, ?_, h2.2.2.1, h2.2.2.2⟩
            rw [keysD_append]
            simp only [List.mem_append]
            rintro (h | h)
            · exact h2.2.1 h
            · exact hne k hk (by simpa [keysD] using h)
          rw [List.foldl_cons, hstep, ih _ hnodup' hdisj']
          have f1 : isDiffering p.2 = false := by simp [isDiffering, he, hd, heq]
          have f2 : isMatched p.2 = true := by simp [isMatched, he, hd, heq]
          have f3 : isEnvOnly p.2 = false := by simp [isEnvOnly, he, hd]
          have f4 : isDeployedOnly p.2 = false := by simp [isDeployedOnly, he]
          simp [List.filter_cons, f1, f2, f3, f4]
        · -- unequal versions: differences bucket
          have hstep : classifyStep acc p =
              { acc with differences := acc.differences ++ [p] } := by
            unfold classifyStep
            rw [he, hd]
            simp only [heq, ne_eq, not_false_eq_true, if_true, ite_true]
            rw [insertD_of_not_mem _ hdp.1]
          have hdisj' : ∀ k ∈ keysD t, k ∉ keysD (acc.differences ++ [p]) ∧
              k ∉ keysD acc.matched ∧
              k ∉ keysD acc.env_only ∧ k ∉ keysD acc.deployed_only := by
            intro k hk
            have h2 := hdisj k (by simp [keysD] at hk ⊢; exact Or.inr hk)
            refine ⟨?_, h2.2.1, h2.2.2.1, h2.2.2.2⟩
            rw [keysD_append]
            simp only [List.mem_append]
            rintro (h | h)
            · exact h2.1 h
            · exact hne k hk (by simpa [keysD] using h)
          rw [List.foldl_cons, hstep, ih _ hnodup' hdisj']
          have f1 : isDiffering p.2 = true := by simp [isDiffering, he, hd, heq]
          have f2 : isMatched p.2 = false := by simp [isMatched, he, hd, heq]
          have f3 : isEnvOnly p.2 = false := by simp [isEnvOnly, he, hd]
          have f4 : isDeployedOnly p.2 = false := by simp [isDeployedOnly, he]
          simp [List.filter_cons, f1, f2, f3, f4]

/-- The classification result of `compare_versions`, as filters of the
unified comparison list. -/
theorem compare_versions_results (deployed_versions repo_versions : List (String × String)) :
    (compare_versions deployed_versions repo_versions).1 =
      ⟨(create_unified_comparison repo_versions deployed_versions).filter
          (fun p => isDiffering p.2),
       (create_unified_comparison repo_versions deployed_versions).filter
          (fun p => isMatched p.2),
       (create_unified_comparison repo_versions deployed_versions).filter
          (fun p => isEnvOnly p.2),
       (create_unified_comparison repo_versions deployed_versions).filter
          (fun p => isDeployedOnly p.2)⟩ := by
  have h := classify_foldl (create_unified_comparison repo_versions deployed_versions)
    ⟨[], [], [], []⟩ (unified_keys_nodup _ _) (by intro k _; simp [keysD])
  simpa [compare_versions] using h

/-- C1: every unified comparison record lands in exactly one of the four
buckets of `compare_versions` — matched iff both versions present and equal,
differing iff both present and unequal, env-only iff the deployed side is
absent, deployed-only iff the env side is absent — and the returned flag is
true iff the differing, env-only or deployed-only bucket is non-empty. -/
theorem C1_compare_versions_partition
    (deployed_versions repo_versions : List (String × String)) :
    (∀ p ∈ create_unified_comparison repo_versions deployed_versions,
      ((p ∈ (compare_versions deployed_versions repo_versions).1.matched ↔
          (∃ v, p.2.env_version = some v ∧ p.2.deployed_version = some v)) ∧
       (p ∈ (compare_versions deployed_versions repo_versions).1.differences ↔
          (∃ e d, p.2.env_version = some e ∧ p.2.deployed_version = some d ∧ e ≠ d)) ∧
       (p ∈ (compare_versions deployed_versions repo_versions).1.env_only ↔
          p.2.deployed_version = none) ∧
       (p ∈ (compare_versions deployed_versions repo_versions).1.deployed_only ↔
          p.2.env_version = none)) ∧
      ((if p ∈ (compare_versions deployed_versions repo_versions).1.matched then 1 else 0) +
        (if p ∈ (compare_versions deployed_versions repo_versions).1.differences then 1 else 0) +
        (if p ∈ (compare_versions deployed_versions repo_versions).1.env_only then 1 else 0) +
        (if p ∈ (compare_versions deployed_versions repo_versions).1.deployed_only then 1
          else 0) = 1)) ∧
    ((compare_versions deployed_versions repo_versions).2 = true ↔
      ((compare_versions deployed_versions repo_versions).1.differences ≠ [] ∨
       (compare_versions deployed_versions repo_versions).1.env_only ≠ [] ∨
       (compare_versions deployed_versions repo_versions).1.deployed_only ≠ [])) := by
  have hres := compare_versions_results deployed_versions repo_versions
  constructor
  · intro p hp
    have hgood := unified_values_good repo_versions deployed_versions p hp
    rw [hres]
    simp only [List.mem_filter, hp, true_and]
    rcases he : p.2.env_version with _ | e
    · rcases hd : p.2.deployed_version with _ | d
      · rcases hgood with hg | hg
        · exact absurd he hg
        · exact absurd hd hg
      · simp [isMatched, isDiffering, isEnvOnly, isDeployedOnly, he, hd]
    · rcases hd : p.2.deployed_version with _ | d
      · simp [isMatched, isDiffering, isEnvOnly, isDeployedOnly, he, hd]
      · by_cases heq : e = d
        · simp [isMatched, isDiffering, isEnvOnly, isDeployedOnly, he, hd, heq]
        · have hdn : ¬d = e := fun h => heq h.symm
          simp [isMatched, isDiffering, isEnvOnly, isDeployedOnly, he, hd, heq, hdn]
  · have hsnd : (compare_versions deployed_versions repo_versions).2 =
        (!(compare_versions deployed_versions repo_versions).1.differences.isEmpty ||
         !(compare_versions deployed_versions repo_versions).1.env_only.isEmpty ||
         !(compare_versions deployed_versions repo_versions).1.deployed_only.isEmpty) := rfl
    rw [hsnd]
    simp [List.isEmpty_iff, or_assoc]

/-- Witness for C1 at a concrete matched input. -/
theorem C1_compare_versions_partition_witness :
    (("appcd", (⟨some "v1", some "v1", some "appcd", some "appcd"⟩ : ServiceRecord)) ∈
        create_unified_comparison [("appcd", "v1")] [("appcd", "v1")]) ∧
    ("appcd", (⟨some "v1", some "v1", some "appcd", some "appcd"⟩ : ServiceRecord)) ∈
        (compare_versions [("appcd", "v1")] [("appcd", "v1")]).1.matched := by
  have h := C1_compare_versions_partition [("appcd", "v1")] [("appcd", "v1")]
  have hu : create_unified_comparison [("appcd", "v1")] [("appcd", "v1")] =
      [("appcd", (⟨some "v1", some "v1", some "appcd", some "appcd"⟩ : ServiceRecord))] := by
    decide
  have hmem : ("appcd", (⟨some "v1", some "v1", some "appcd", some "appcd"⟩ : ServiceRecord)) ∈
      create_unified_comparison [("appcd", "v1")] [("appcd", "v1")] := by
    rw [hu]
    exact List.mem_singleton.mpr rfl
  exact ⟨hmem, ((h.1 _ hmem).1.1).mpr ⟨"v1", rfl, rfl⟩⟩

/-! ## Lookup through the reconciliation folds (for C2) -/

theorem mem_keysD_of_lookupD {α : Type} :
    ∀ {m : List (String × α)} {k : String} {v : α},
      lookupD m k = some v → k ∈ keysD m := by
  intro m
  induction m with
  | nil => intro k v h; simp [lookupD] at h
  | cons p t ih =>
    intro k v h
    by_cases hp : p.1 = k
    · simp [keysD, hp]
    · simp only [lookupD, if_neg hp] at h
      simp [keysD]
      exact Or.inr (by simpa [keysD] using ih h)

theorem envFold_lookup_of_ne (deployed_versions : List (String × String)) :
    ∀ (l : List (String × String)) (acc : List (String × ServiceRecord)) (k : String),
      (∀ p ∈ l, p.1 ≠ k) →
      lookupD (l.foldl (envStep deployed_versions) acc) k = lookupD acc k := by
  intro l
  induction l with
  | nil => intro acc k _; rfl
  | cons q t ih =>
    intro acc k h
    rw [List.foldl_cons, ih _ _ (fun p hp => h p (List.mem_cons_of_mem _ hp))]
    exact lookupD_insertD_ne _ _ (h q (List.mem_cons_self _ _))

theorem envFold_lookup (deployed_versions : List (String × String)) :
    ∀ (l : List (String × String)) (acc : List (String × ServiceRecord)) (k v : String),
      (keysD l).Nodup → (k, v) ∈ l →
      lookupD (l.foldl (envStep deployed_versions) acc) k =
        some (envRecord deployed_versions (k, v)) := by
  intro l
  induction l with
  | nil => intro acc k v _ h; simp at h
  | cons q t ih =>
    intro acc k v hnodup hmem
    have hcons := List.nodup_cons.mp (show (q.1 :: keysD t).Nodup from hnodup)
    rcases List.mem_cons.mp hmem with rfl | hmem'
    · have hne2 : ∀ p ∈ t, p.1 ≠ (k, v).1 := by
        intro p hp hpk
        exact hcons.1 (hpk ▸ List.mem_map_of_mem Prod.fst hp)
      rw [List.foldl_cons, envFold_lookup_of_ne _ _ _ _ hne2]
      exact lookupD_insertD_self _ _ _
    · exact ih _ _ _ hcons.2 hmem'

theorem deployedFold_lookup_of_ne (env_versions : List (String × String)) :
    ∀ (l : List (String × String)) (acc : List (String × ServiceRecord)) (k : String),
      (∀ p ∈ l, p.1 ∉ mapped_deployed_services env_versions →
        ("deployed_only_" ++ p.1) ≠ k) →
      lookupD (l.foldl (deployedStep env_versions) acc) k = lookupD acc k := by
  intro l
  induction l with
  | nil => intro acc k _; rfl
  | cons q t ih =>
    intro acc k h
    rw [List.foldl_cons, ih _ _ (fun p hp => h p (List.mem_cons_of_mem _ hp))]
    unfold deployedStep
    by_cases hm : q.1 ∈ mapped_deployed_services env_versions
    · rw [if_pos hm]
    · rw [if_neg hm]
      exact lookupD_insertD_ne _ _ (h q (List.mem_cons_self _ _) hm)

/-- C2 counterexample: the claim fails as stated.  For the env map
`{"deployed_only_exporter": "v1"}` (whose key has no mapping-table entry) and
the deployed map `{"exporter": "v2"}`, the second phase of reconciliation
writes its synthetic `deployed_only_exporter` record over the env-only
record, so the env key's single record has its deployed fields present and
its env fields absent — not an env-only record. -/
theorem C2_counterexample :
    create_unified_comparison [("deployed_only_exporter", "v1")] [("exporter", "v2")] =
      [("deployed_only_exporter", ⟨none, some "v2", none, some "exporter"⟩)] ∧
    (∀ p ∈ create_unified_comparison [("deployed_only_exporter", "v1")]
        [("exporter", "v2")],
      ¬(p.2.deployed_version = none ∧ p.2.deployed_name = none)) := by
  constructor
  · decide
  · decide

/-- C2 (amended): for every key of the env map whose mapping-table entry is
missing or the explicit `None` marker, reconciliation emits exactly one
record for that key, an env-only record — provided the key does not collide
with the synthetic `deployed_only_<d>` name of an unreferenced deployed key
`d`, which would overwrite it. -/
theorem C2_env_only_record (env_versions deployed_versions : List (String × String))
    (k v : String)
    (hnodup : (keysD env_versions).Nodup)
    (hmem : (k, v) ∈ env_versions)
    (hmap : lookupD SERVICE_NAME_MAPPING (pyLower k) = none ∨
            lookupD SERVICE_NAME_MAPPING (pyLower k) = some none)
    (hnocollide : ∀ p ∈ deployed_versions,
      p.1 ∉ mapped_deployed_services env_versions → k ≠ "deployed_only_" ++ p.1) :
    lookupD (create_unified_comparison env_versions deployed_versions) k =
      some ⟨some v, none, some k, none⟩ ∧
    (keysD (create_unified_comparison env_versions deployed_versions)).count k = 1 := by
  have hm : map_env_to_deployed k = none := by
    unfold map_env_to_deployed
    rcases hmap with h | h <;> rw [h]
  have hrec : envRecord deployed_versions (k, v) = ⟨some v, none, some k, none⟩ := by
    unfold envRecord
    rw [show (k, v).1 = k from rfl, hm]
  have hlook : lookupD (create_unified_comparison env_versions deployed_versions) k =
      some ⟨some v, none, some k, none⟩ := by
    unfold create_unified_comparison
    rw [deployedFold_lookup_of_ne _ _ _ _
        (fun p hp hnm heq => hnocollide p hp hnm heq.symm),
      envFold_lookup _ _ _ _ _ hnodup hmem, hrec]
  refine ⟨hlook, ?_⟩
  exact List.count_eq_one_of_mem (unified_keys_nodup _ _) (mem_keysD_of_lookupD hlook)

/-- Witness for C2 at the spec's own example: env map
`{"llm_gateway": "v0.6.3"}`, table entry `llm_gateway -> None`. -/
theorem C2_env_only_record_witness :
    ((keysD [("llm_gateway", "v0.6.3")]).Nodup ∧
      ("llm_gateway", "v0.6.3") ∈ [("llm_gateway", "v0.6.3")] ∧
      lookupD SERVICE_NAME_MAPPING (pyLower "llm_gateway") = some none) ∧
    lookupD (create_unified_comparison [("llm_gateway", "v0.6.3")] [("exporter", "v1")])
        "llm_gateway" = some ⟨some "v0.6.3", none, some "llm_gateway", none⟩ ∧
    (keysD (create_unified_comparison [("llm_gateway", "v0.6.3")]
        [("exporter", "v1")])).count "llm_gateway" = 1 :=
  ⟨⟨by decide, by decide, by decide⟩,
    C2_env_only_record [("llm_gateway", "v0.6.3")] [("exporter", "v1")]
      "llm_gateway" "v0.6.3" (by decide) (by decide) (Or.inr (by decide))
      (by decide)⟩

/-! ## Deployed-only records (for C3) -/

theorem string_append_left_cancel {s a b : String} (h : s ++ a = s ++ b) : a = b := by
  apply String.ext
  have hd := congrArg String.data h
  rw [String.data_append, String.data_append] at hd
  exact List.append_cancel_left hd

theorem countP_insertD (f : String × ServiceRecord → Bool)
    (m : List (String × ServiceRecord)) (k : String) (v : ServiceRecord)
    (hold : ∀ p ∈ m, p.1 = k → f p = false) :
    (insertD m k v).countP f = m.countP f + (if f (k, v) then 1 else 0) := by
  induction m with
  | nil => simp [insertD, List.countP_cons]
  | cons p t ih =>
    by_cases hp : p.1 = k
    · have hfp : f p = false := hold p (List.mem_cons_self _ _) hp
      simp [insertD, hp, List.countP_cons, hfp]
    · rw [show insertD (p :: t) k v = p :: insertD t k v by simp [insertD, hp],
        List.countP_cons, List.countP_cons,
        ih (fun q hq => hold q (List.mem_cons_of_mem _ hq))]
      ring

/-- A generic invariant of `create_unified_comparison`: any property holding
of all env-phase records and all deployed-only records holds of every entry. -/
theorem unified_all (P : String × ServiceRecord → Prop)
    (env_versions deployed_versions : List (String × String))
    (h1 : ∀ p : String × String, P (p.1, envRecord deployed_versions p))
    (h2 : ∀ p : String × String, P ("deployed_only_" ++ p.1, ⟨none, some p.2, none, some p.1⟩)) :
    ∀ q ∈ create_unified_comparison env_versions deployed_versions, P q := by
  unfold create_unified_comparison
  have henv : ∀ (l : List (String × String)) (acc : List (String × ServiceRecord)),
      (∀ q ∈ acc, P q) → ∀ q ∈ l.foldl (envStep deployed_versions) acc, P q := by
    intro l
    induction l with
    | nil => exact fun acc h => h
    | cons q t ih =>
      intro acc h
      exact ih _ (insertD_values _ h (h1 q))
  have hdep : ∀ (l : List (String × String)) (acc : List (String × ServiceRecord)),
      (∀ q ∈ acc, P q) → ∀ q ∈ l.foldl (deployedStep env_versions) acc, P q := by
    intro l
    induction l with
    | nil => exact fun acc h => h
    | cons q t ih =>
      intro acc h
      rw [List.foldl_cons]
      unfold deployedStep
      by_cases hm : q.1 ∈ mapped_deployed_services env_versions
      · rw [if_pos hm]
        exact ih _ h
      · rw [if_neg hm]
        exact ih _ (insertD_values _ h (h2 q))
  exact hdep _ _ (henv _ _ (by simp))

/-- Entries missing the env version are exactly the phase-two synthetic
records: key `deployed_only_<d>`, deployed name `d`. -/
theorem unified_shape (env_versions deployed_versions : List (String × String)) :
    ∀ q ∈ create_unified_comparison env_versions deployed_versions,
      q.2.env_version = none →
        ∃ e, q.1 = "deployed_only_" ++ e ∧ q.2.deployed_name = some e ∧
          q.2.env_name = none ∧ q.2.deployed_version ≠ none := by
  refine unified_all _ _ _ ?_ ?_
  · intro p hnone
    rw [envRecord_env_version] at hnone
    exact absurd hnone (by simp)
  · intro p _
    exact ⟨p.1, rfl, rfl, rfl, by simp⟩

/-- Reductions of one deployed-phase step. -/
theorem deployedStep_pos (env_versions : List (String × String))
    (acc : List (String × ServiceRecord)) (q : String × String)
    (hm : q.1 ∈ mapped_deployed_services env_versions) :
    deployedStep env_versions acc q = acc := by
  unfold deployedStep
  rw [if_pos hm]

theorem deployedStep_neg (env_versions : List (String × String))
    (acc : List (String × ServiceRecord)) (q : String × String)
    (hm : q.1 ∉ mapped_deployed_services env_versions) :
    deployedStep env_versions acc q =
      insertD acc ("deployed_only_" ++ q.1) ⟨none, some q.2, none, some q.1⟩ := by
  unfold deployedStep
  rw [if_neg hm]

/-- Counting version of the deployed phase: one synthetic record appears for
an unreferenced deployed key, none otherwise. -/
theorem phase2_countP (env_versions : List (String × String)) (d : String) :
    ∀ (l : List (String × String)) (acc : List (String × ServiceRecord)),
      (keysD l).Nodup →
      (∀ p ∈ acc, p.2.env_version = none →
        ∃ e, p.1 = "deployed_only_" ++ e ∧ p.2.deployed_name = some e) →
      (d ∈ keysD l →
        acc.countP (fun p => decide (p.2.env_version = none ∧ p.2.deployed_name = some d)) = 0) →
      (l.foldl (deployedStep env_versions) acc).countP
          (fun p => decide (p.2.env_version = none ∧ p.2.deployed_name = some d)) =
        acc.countP (fun p => decide (p.2.env_version = none ∧ p.2.deployed_name = some d)) +
          (if d ∈ keysD l ∧ d ∉ mapped_deployed_services env_versions then 1 else 0) := by
  intro l
  induction l with
  | nil =>
    intro acc _ _ _
    simp [keysD]
  | cons q t ih =>
    intro acc hnodup hJ hzero
    have hcons := List.nodup_cons.mp (show (q.1 :: keysD t).Nodup from hnodup)
    have hmemq : d ∈ keysD (q :: t) ↔ d = q.1 ∨ d ∈ keysD t := by simp [keysD]
    by_cases hm : q.1 ∈ mapped_deployed_services env_versions
    · rw [List.foldl_cons, deployedStep_pos _ _ _ hm, ih _ hcons.2 hJ
        (fun hd => hzero (hmemq.mpr (Or.inr hd)))]
      congr 1
      by_cases hq : d = q.1
      · subst hq
        simp [hmemq, hm, hcons.1]
      · by_cases ht : d ∈ keysD t <;> simp [hmemq, hq, ht]
    · rw [List.foldl_cons, deployedStep_neg _ _ _ hm]
      have hold : ∀ p ∈ acc, p.1 = "deployed_only_" ++ q.1 →
          (fun p => decide (p.2.env_version = none ∧ p.2.deployed_name = some d)) p = false := by
        intro p hp hkey
        by_contra hcontra
        have hpd : p.2.env_version = none ∧ p.2.deployed_name = some d := by
          simpa using hcontra
        obtain ⟨e, he1, he2⟩ := hJ p hp hpd.1
        have hed : e = d := Option.some_inj.mp (he2.symm.trans hpd.2)
        have hq1 : d = q.1 := by
          subst hed
          exact string_append_left_cancel (he1.symm.trans hkey)
        have h0 := hzero (hmemq.mpr (Or.inl hq1))
        have hpos : 0 < acc.countP
            (fun p => decide (p.2.env_version = none ∧ p.2.deployed_name = some d)) := by
          rw [List.countP_pos_iff]
          exact ⟨p, hp, by simpa using hpd⟩
        omega
      have hJ2 : ∀ p ∈ insertD acc ("deployed_only_" ++ q.1)
            (⟨none, some q.2, none, some q.1⟩ : ServiceRecord),
          p.2.env_version = none →
          ∃ e, p.1 = "deployed_only_" ++ e ∧ p.2.deployed_name = some e := by
        refine insertD_values _ hJ ?_
        intro _
        exact ⟨q.1, rfl, rfl⟩
      by_cases hq : d = q.1
      · have hdt : d ∉ keysD t := by
          rw [hq]
          exact hcons.1
        rw [ih _ hcons.2 hJ2 (fun hd => absurd hd hdt), countP_insertD _ _ _ _ hold]
        have h0 := hzero (hmemq.mpr (Or.inl hq))
        have hdm : d ∉ mapped_deployed_services env_versions := by
          rw [hq]
          exact hm
        simp [h0, hmemq, hdt, hq, hdm]
        simp [hcons.1, hm, keysD]
        intro x hx
        exact hcons.1 (show ((q.1, x)).1 ∈ keysD t from List.mem_map_of_mem Prod.fst hx)
      · have hqd : ¬q.1 = d := fun h => hq h.symm
        have hzero2 : d ∈ keysD t →
            (insertD acc ("deployed_only_" ++ q.1)
              (⟨none, some q.2, none, some q.1⟩ : ServiceRecord)).countP
              (fun p => decide (p.2.env_version = none ∧ p.2.deployed_name = some d)) = 0 := by
          intro hd
          rw [countP_insertD _ _ _ _ hold, hzero (hmemq.mpr (Or.inr hd))]
          simp [hqd]
        rw [ih _ hcons.2 hJ2 hzero2, countP_insertD _ _ _ _ hold]
        by_cases ht : d ∈ keysD t <;> simp [hmemq, hq, ht, hqd]

theorem envFold_env_some (deployed_versions : List (String × String)) :
    ∀ (l : List (String × String)) (acc : List (String × ServiceRecord)),
      (∀ p ∈ acc, p.2.env_version ≠ none) →
      ∀ p ∈ l.foldl (envStep deployed_versions) acc, p.2.env_version ≠ none := by
  intro l
  induction l with
  | nil => exact fun acc h => h
  | cons q t ih =>
    intro acc h
    refine ih _ (insertD_values _ h ?_)
    simp [envRecord_env_version]

/-- C3: a deployed key referenced by no env mapping yields exactly one
deployed-only record (env version and env name absent); a referenced
deployed key yields none. -/
theorem C3_deployed_only_record (env_versions deployed_versions : List (String × String))
    (d : String) (hnodup : (keysD deployed_versions).Nodup) :
    (create_unified_comparison env_versions deployed_versions).countP
        (fun p => decide (p.2.env_version = none ∧ p.2.deployed_name = some d)) =
      (if d ∈ keysD deployed_versions ∧ d ∉ mapped_deployed_services env_versions
        then 1 else 0) ∧
    (∀ p ∈ create_unified_comparison env_versions deployed_versions,
      p.2.env_version = none → p.2.env_name = none) := by
  constructor
  · have hsome : ∀ p ∈ env_versions.foldl (envStep deployed_versions) [],
        p.2.env_version ≠ none :=
      envFold_env_some deployed_versions env_versions [] (by simp)
    have h0 : (env_versions.foldl (envStep deployed_versions) []).countP
        (fun p => decide (p.2.env_version = none ∧ p.2.deployed_name = some d)) = 0 := by
      rw [List.countP_eq_zero]
      intro p hp
      simp only [decide_eq_true_eq, not_and]
      intro h
      exact absurd h (hsome p hp)
    have hJ : ∀ p ∈ env_versions.foldl (envStep deployed_versions) [],
        p.2.env_version = none →
        ∃ e, p.1 = "deployed_only_" ++ e ∧ p.2.deployed_name = some e :=
      fun p hp h => absurd h (hsome p hp)
    unfold create_unified_comparison
    rw [phase2_countP env_versions d deployed_versions _ hnodup hJ (fun _ => h0), h0,
      Nat.zero_add]
  · intro p hp h
    obtain ⟨e, _, _, hname, _⟩ := unified_shape env_versions deployed_versions p hp h
    exact hname

/-- Witness for C3 at the spec's example: deployed key `exporter` referenced
by no env key. -/
theorem C3_deployed_only_record_witness :
    (keysD [("exporter", "v2")]).Nodup ∧
    (create_unified_comparison [("appcd", "v1")] [("exporter", "v2")]).countP
        (fun p => decide (p.2.env_version = none ∧ p.2.deployed_name = some "exporter")) =
      (if "exporter" ∈ keysD [("exporter", "v2")] ∧
          "exporter" ∉ mapped_deployed_services [("appcd", "v1")] then 1 else 0) :=
  ⟨by decide,
    (C3_deployed_only_record [("appcd", "v1")] [("exporter", "v2")] "exporter"
      (by decide)).1⟩

/-- C9: `compare_versions` tests presence as non-`None`, never as
non-emptiness: a deployed empty-string version together with a different
non-empty env version classifies as differing (not env-only), and two
empty-string versions classify as matched. -/
theorem C9_empty_string_versions (v : String) (hv : v ≠ "") :
    (compare_versions [("appcd", "")] [("appcd", v)]).1.differences =
        [("appcd", ⟨some v, some "", some "appcd", some "appcd"⟩)] ∧
    (compare_versions [("appcd", "")] [("appcd", v)]).1.env_only = [] ∧
    (compare_versions [("appcd", "")] [("appcd", "")]).1.matched =
        [("appcd", ⟨some "", some "", some "appcd", some "appcd"⟩)] := by
  have hu : create_unified_comparison [("appcd", v)] [("appcd", "")] =
      [("appcd", ⟨some v, some "", some "appcd", some "appcd"⟩)] := rfl
  refine ⟨?_, ?_, by decide⟩
  · rw [compare_versions_results, hu]
    simp [isDiffering, hv]
  · rw [compare_versions_results, hu]
    simp [isEnvOnly]

/-- Witness for C9 at the non-empty env version `"v1.0"`. -/
theorem C9_empty_string_versions_witness :
    ("v1.0" ≠ "") ∧
    (compare_versions [("appcd", "")] [("appcd", "v1.0")]).1.differences =
      [("appcd", ⟨some "v1.0", some "", some "appcd", some "appcd"⟩)] :=
  ⟨by decide, (C9_empty_string_versions "v1.0" (by decide)).1⟩

/-! ## compare_versions.py: VersionComparator.parse_env_content

The five `version_patterns` regexes are embedded as executable matchers on
character lists, matched with `re.match` semantics (anchored at the start,
trailing input unconstrained, `re.IGNORECASE` on literals, ASCII word
characters).  The only backtracking the regexes can perform is on the
leading `(\w+)` of the suffix patterns (`_VERSION`, `_TAG`) and on the
optional quote before `[^:]+` in the `IMAGE_` pattern; the embeddings
perform exactly those, longest-first as the engine does.  The `(\w+)` of
`VERSION_(\w+)` and `IMAGE_(\w+)` is effectively greedy-deterministic:
shrinking it exposes a word character where `\s*=` must match, which fails.
-/

/-- Python `\s` / `str.strip()` whitespace (ASCII). -/
def pyIsSpace (c : Char) : Bool :=
  c == ' ' || c == '\t' || c == '\n' || c == '\r' || c == '\x0b' || c == '\x0c'

/-- Model of Python `str.strip()`. -/
def pyStrip (cs : List Char) : List Char :=
  ((cs.dropWhile pyIsSpace).reverse.dropWhile pyIsSpace).reverse

/-- Python `\w` (ASCII part). -/
def isWordChar (c : Char) : Bool := c.isAlphanum || c == '_'

/-- Consume a literal case-insensitively (`re.IGNORECASE`), returning the
remainder. -/
def ciDrop : List Char → List Char → Option (List Char)
  | [], cs => some cs
  | _ :: _, [] => none
  | l :: lit, c :: cs => if c.toLower = l.toLower then ciDrop lit cs else none

/-- The shared regex tail `\s*=\s*["\']?([^\s"\']+)["\']?`: returns the
captured value group.  The optional quote is deterministic because the value
class excludes quotes. -/
def matchAssignTail (cs : List Char) : Option (List Char) :=
  match cs.dropWhile pyIsSpace with
  | '=' :: cs =>
    let cs := cs.dropWhile pyIsSpace
    let cs := match cs with
      | c :: rest => if c = '"' ∨ c = '\'' then rest else c :: rest
      | [] => []
    let v := cs.takeWhile (fun c => !pyIsSpace c && c ≠ '"' && c ≠ '\'')
    if v.isEmpty then none else some v
  | _ => none

/-- Backtracking loop for `(\w+)LIT<assign-tail>`: `revPre` holds the current
(reversed) candidate for the greedy `\w+`, `post` the rest; candidates are
tried longest first exactly as the regex engine backtracks. -/
def wordBacktrack (lit : List Char) : List Char → List Char →
    Option (List Char × List Char)
  | [], _ => none
  | c :: revPre, post =>
    match ciDrop lit post with
    | some rest =>
      match matchAssignTail rest with
      | some v => some ((c :: revPre).reverse, v)
      | none => wordBacktrack lit revPre (c :: post)
    | none => wordBacktrack lit revPre (c :: post)

/-- Patterns 1 and 3: `(\w+)_VERSION<tail>` / `(\w+)_TAG<tail>`. -/
def matchWordSuffix (lit : List Char) (cs : List Char) :
    Option (List Char × List Char) :=
  wordBacktrack lit (cs.takeWhile isWordChar).reverse (cs.dropWhile isWordChar)

/-- Pattern 2: `VERSION_(\w+)<tail>`. -/
def matchVersionPrefix (cs : List Char) : Option (List Char × List Char) :=
  match ciDrop "VERSION_".data cs with
  | none => none
  | some rest =>
    let name := rest.takeWhile isWordChar
    if name.isEmpty then none
    else
      match matchAssignTail (rest.dropWhile isWordChar) with
      | some v => some (name, v)
      | none => none

/-- The `IMAGE_` pattern tail after the name: `\s*=\s*["\']?[^:]+:([^\s"\']+)["\']?`,
with the regex's backtracking on the optional quote (the `[^:]+` class does
not exclude quotes, so un-consuming the quote is a live alternative). -/
def matchImageTail (cs : List Char) : Option (List Char) :=
  match cs.dropWhile pyIsSpace with
  | '=' :: cs =>
    let cs := cs.dropWhile pyIsSpace
    let attempt := fun (cs : List Char) =>
      let repo := cs.takeWhile (fun c => c ≠ ':')
      if repo.isEmpty then none
      else
        match cs.dropWhile (fun c => c ≠ ':') with
        | ':' :: rest =>
          let v := rest.takeWhile (fun c => !pyIsSpace c && c ≠ '"' && c ≠ '\'')
          if v.isEmpty then none else some v
        | _ => none
    match cs with
    | c :: rest =>
      if c = '"' ∨ c = '\'' then
        match attempt rest with
        | some v => some v
        | none => attempt (c :: rest)
      else attempt (c :: rest)
    | [] => none
  | _ => none

/-- Pattern 4: `IMAGE_(\w+)\s*=\s*["\']?[^:]+:([^\s"\']+)["\']?`. -/
def matchImage (cs : List Char) : Option (List Char × List Char) :=
  match ciDrop "IMAGE_".data cs with
  | none => none
  | some rest =>
    let name := rest.takeWhile isWordChar
    if name.isEmpty then none
    else
      match matchImageTail (rest.dropWhile isWordChar) with
      | some v => some (name, v)
      | none => none

/-- The alternation literals of pattern 5. -/
def SPECIAL_SERVICE_NAMES : List String :=
  ["SGAI_ORCHESTRATION", "STACKGEN_NOTIFICATIONS", "APPCD_ANALYZER",
   "SGAI_KNOWLEDGE", "SGAI_CONTROL"]

/-- Pattern 5: `(LIT1|...|LIT5)<tail>`; alternatives are tried in order and
group 1 is the matched input text (original case). -/
def matchSpecial : List String → List Char → Option (List Char × List Char)
  | [], _ => none
  | lit :: lits, cs =>
    match ciDrop lit.data cs with
    | some rest =>
      match matchAssignTail rest with
      | some v => some (cs.take lit.length, v)
      | none => matchSpecial lits cs
    | none => matchSpecial lits cs

/-- The ordered `version_patterns` list of `parse_env_content`. -/
def version_patterns : List (List Char → Option (List Char × List Char)) :=
  [matchWordSuffix "_VERSION".data,
   matchVersionPrefix,
   matchWordSuffix "_TAG".data,
   matchImage,
   matchSpecial SPECIAL_SERVICE_NAMES]

/-- The inner `for pattern in version_patterns: ... break` loop: the first
matching pattern wins. -/
def applyPatterns : List (List Char → Option (List Char × List Char)) →
    List Char → Option (List Char × List Char)
  | [], _ => none
  | p :: ps, cs =>
    match p cs with
    | some r => some r
    | none => applyPatterns ps cs

def lowerChars (cs : List Char) : List Char := cs.map Char.toLower

/-- One iteration of the line loop of `parse_env_content`: strip the line,
skip blank and comment lines, otherwise store the first match's lowercased
service name and stripped value. -/
def processLine (versions : List (String × String)) (rawLine : List Char) :
    List (String × String) :=
  let line := pyStrip rawLine
  if line = [] ∨ line.head? = some '#' then versions
  else
    match applyPatterns version_patterns line with
    | some (service_name, version) =>
        insertD versions (String.mk (lowerChars service_name)) (String.mk (pyStrip version))
    | none => versions

/-- Model of Python `str.split('\n')`. -/
def splitOnChar (sep : Char) : List Char → List (List Char)
  | [] => [[]]
  | c :: cs =>
    let r := splitOnChar sep cs
    if c = sep then [] :: r
    else
      match r with
      | [] => [[c]]
      | l :: ls => (c :: l) :: ls

/-- `VersionComparator.parse_env_content`. -/
def parse_env_content (env_content : String) : List (String × String) :=
  (splitOnChar '\n' env_content.data).foldl processLine []

/-- C4: `parse_env_content` processes its text line by line, and on a
stripped non-empty non-comment line the first matching pattern of the
ordered list alone determines the stored entry — later patterns are not
consulted once one matches; the key is the matched service name lowercased
and the value is the captured group stripped. -/
theorem C4_first_pattern_wins (versions : List (String × String)) (rawLine : List Char)
    (hne : pyStrip rawLine ≠ []) (hnc : (pyStrip rawLine).head? ≠ some '#') :
    (∀ env_content : String, parse_env_content env_content =
      (splitOnChar '\n' env_content.data).foldl processLine []) ∧
    (∀ s v, matchWordSuffix "_VERSION".data (pyStrip rawLine) = some (s, v) →
      processLine versions rawLine =
        insertD versions (String.mk (lowerChars s)) (String.mk (pyStrip v))) ∧
    (matchWordSuffix "_VERSION".data (pyStrip rawLine) = none →
      ∀ s v, matchVersionPrefix (pyStrip rawLine) = some (s, v) →
      processLine versions rawLine =
        insertD versions (String.mk (lowerChars s)) (String.mk (pyStrip v))) ∧
    (matchWordSuffix "_VERSION".data (pyStrip rawLine) = none →
      matchVersionPrefix (pyStrip rawLine) = none →
      ∀ s v, matchWordSuffix "_TAG".data (pyStrip rawLine) = some (s, v) →
      processLine versions rawLine =
        insertD versions (String.mk (lowerChars s)) (String.mk (pyStrip v))) ∧
    (matchWordSuffix "_VERSION".data (pyStrip rawLine) = none →
      matchVersionPrefix (pyStrip rawLine) = none →
      matchWordSuffix "_TAG".data (pyStrip rawLine) = none →
      ∀ s v, matchImage (pyStrip rawLine) = some (s, v) →
      processLine versions rawLine =
        insertD versions (String.mk (lowerChars s)) (String.mk (pyStrip v))) ∧
    (matchWordSuffix "_VERSION".data (pyStrip rawLine) = none →
      matchVersionPrefix (pyStrip rawLine) = none →
      matchWordSuffix "_TAG".data (pyStrip rawLine) = none →
      matchImage (pyStrip rawLine) = none →
      ∀ s v, matchSpecial SPECIAL_SERVICE_NAMES (pyStrip rawLine) = some (s, v) →
      processLine versions rawLine =
        insertD versions (String.mk (lowerChars s)) (String.mk (pyStrip v))) := by
  have hcond : ¬(pyStrip rawLine = [] ∨ (pyStrip rawLine).head? = some '#') := by
    rintro (h | h)
    · exact hne h
    · exact hnc h
  refine ⟨fun _ => rfl, ?_, ?_, ?_, ?_, ?_⟩
  · intro s v h1
    unfold processLine
    rw [if_neg hcond]
    simp only [version_patterns, applyPatterns, h1]
  · intro h1 s v h2
    unfold processLine
    rw [if_neg hcond]
    simp only [version_patterns, applyPatterns, h1, h2]
  · intro h1 h2 s v h3
    unfold processLine
    rw [if_neg hcond]
    simp only [version_patterns, applyPatterns, h1, h2, h3]
  · intro h1 h2 h3 s v h4
    unfold processLine
    rw [if_neg hcond]
    simp only [version_patterns, applyPatterns, h1, h2, h3, h4]
  · intro h1 h2 h3 h4 s v h5
    unfold processLine
    rw [if_neg hcond]
    simp only [version_patterns, applyPatterns, h1, h2, h3, h4, h5]

/-- Witness for C4 on the single line `APPCD_VERSION=1.2.3`. -/
theorem C4_first_pattern_wins_witness :
    (pyStrip ("APPCD_VERSION=1.2.3".data) ≠ [] ∧
     (pyStrip ("APPCD_VERSION=1.2.3".data)).head? ≠ some '#' ∧
     matchWordSuffix "_VERSION".data (pyStrip ("APPCD_VERSION=1.2.3".data)) =
       some ("APPCD".data, "1.2.3".data)) ∧
    processLine [] ("APPCD_VERSION=1.2.3".data) =
      insertD [] (String.mk (lowerChars "APPCD".data)) (String.mk (pyStrip "1.2.3".data)) :=
  ⟨⟨by decide, by decide, by decide⟩,
    (C4_first_pattern_wins [] ("APPCD_VERSION=1.2.3".data) (by decide) (by decide)).2.1
      "APPCD".data "1.2.3".data (by decide)⟩

/-- C8: `parse_env_content` is total by construction, and a line that strips
to empty, starts with `#`, or matches none of the patterns leaves the result
map unchanged. -/
theorem C8_malformed_lines_skipped (versions : List (String × String)) (rawLine : List Char)
    (h : pyStrip rawLine = [] ∨ (pyStrip rawLine).head? = some '#' ∨
      applyPatterns version_patterns (pyStrip rawLine) = none) :
    processLine versions rawLine = versions := by
  unfold processLine
  rcases h with h | h | h
  · rw [if_pos (Or.inl h)]
  · rw [if_pos (Or.inr h)]
  · by_cases hc : pyStrip rawLine = [] ∨ (pyStrip rawLine).head? = some '#'
    · rw [if_pos hc]
    · rw [if_neg hc]
      simp only [h]

/-- Witness for C8 on a comment line and a no-match line. -/
theorem C8_malformed_lines_skipped_witness :
    ((pyStrip ("# comment".data)).head? = some '#' ∧
      applyPatterns version_patterns (pyStrip ("garbage line".data)) = none) ∧
    processLine [] ("# comment".data) = [] ∧
    processLine [] ("garbage line".data) = [] :=
  ⟨⟨by decide, by decide⟩,
    C8_malformed_lines_skipped [] ("# comment".data) (Or.inr (Or.inl (by decide))),
    C8_malformed_lines_skipped [] ("garbage line".data) (Or.inr (Or.inr (by decide)))⟩

/-! ## JSON model (Python `json.loads` / `json.dumps` as used by
`parse_version_json`)

Python objects coming out of `json.loads` are modelled by `Json`; numbers
keep their lexeme (no floating point is ever inspected by the code under
verification).  `json_loads` is a recursive-descent parser with the same
accept/reject behaviour: leading/trailing whitespace allowed, one value,
anything else is a `JSONDecodeError` (`none`). -/

inductive Json where
  | jnull
  | jbool (b : Bool)
  | jnum (raw : String)
  | jstr (s : String)
  | jarr (xs : List Json)
  | jobj (kvs : List (String × Json))

/-- JSON whitespace. -/
def jsonWs (c : Char) : Bool := c == ' ' || c == '\t' || c == '\n' || c == '\r'

def hexVal (c : Char) : Option Nat :=
  if '0' ≤ c ∧ c ≤ '9' then some (c.toNat - 48)
  else if 'a' ≤ c ∧ c ≤ 'f' then some (c.toNat - 87)
  else if 'A' ≤ c ∧ c ≤ 'F' then some (c.toNat - 55)
  else none

/-- Parse the body of a JSON string literal (after the opening quote);
`acc` holds the decoded characters in reverse.  Control characters are
rejected, standard escapes are decoded. -/
def parseStringBody : List Char → List Char → Option (String × List Char)
  | acc, '"' :: rest => some (String.mk acc.reverse, rest)
  | acc, '\\' :: c :: rest =>
    match c with
    | '"' => parseStringBody ('"' :: acc) rest
    | '\\' => parseStringBody ('\\' :: acc) rest
    | '/' => parseStringBody ('/' :: acc) rest
    | 'b' => parseStringBody ('\x08' :: acc) rest
    | 'f' => parseStringBody ('\x0c' :: acc) rest
    | 'n' => parseStringBody ('\n' :: acc) rest
    | 'r' => parseStringBody ('\r' :: acc) rest
    | 't' => parseStringBody ('\t' :: acc) rest
    | 'u' =>
      (match rest with
       | h1 :: h2 :: h3 :: h4 :: rest2 =>
         match hexVal h1, hexVal h2, hexVal h3, hexVal h4 with
         | some a, some b, some c2, some d =>
           parseStringBody (Char.ofNat (((a * 16 + b) * 16 + c2) * 16 + d) :: acc) rest2
         | _, _, _, _ => none
       | _ => none)
    | _ => none
  | acc, c :: rest => if c.toNat < 32 then none else parseStringBody (c :: acc) rest
  | _, [] => none

/-- The fractional part `(\.\d+)?` of a JSON number. -/
def parseFrac : List Char → Option (List Char × List Char)
  | '.' :: r =>
    let d := r.takeWhile Char.isDigit
    if d.isEmpty then none else some ('.' :: d, r.dropWhile Char.isDigit)
  | cs => some ([], cs)

/-- The exponent part `([eE][+-]?\d+)?` of a JSON number. -/
def parseExp : List Char → Option (List Char × List Char)
  | c :: r =>
    if c = 'e' ∨ c = 'E' then
      let sr : List Char × List Char :=
        match r with
        | '+' :: r2 => (['+'], r2)
        | '-' :: r2 => (['-'], r2)
        | _ => ([], r)
      let d := sr.2.takeWhile Char.isDigit
      if d.isEmpty then none
      else some (c :: sr.1 ++ d, sr.2.dropWhile Char.isDigit)
    else some ([], c :: r)
  | [] => some ([], [])

/-- A JSON number lexeme `-?(0|[1-9]\d*)(\.\d+)?([eE][+-]?\d+)?`. -/
def parseNumber (cs0 : List Char) : Option (String × List Char) :=
  let nr : List Char × List Char :=
    match cs0 with
    | '-' :: r => (['-'], r)
    | _ => ([], cs0)
  let intPart := nr.2.takeWhile Char.isDigit
  let r1 := nr.2.dropWhile Char.isDigit
  if intPart.isEmpty then none
  else if 1 < intPart.length ∧ intPart.head? = some '0' then none
  else
    match parseFrac r1 with
    | none => none
    | some (fracPart, r2) =>
      match parseExp r2 with
      | none => none
      | some (expPart, r3) =>
        some (String.mk (nr.1 ++ intPart ++ fracPart ++ expPart), r3)

mutual

/-- Parse one JSON value; no leading whitespace expected. -/
def parseValue : Nat → List Char → Option (Json × List Char)
  | 0, _ => none
  | fuel + 1, cs =>
    match cs with
    | '{' :: rest => parseObjStart fuel rest
    | '[' :: rest => parseArrStart fuel rest
    | '"' :: rest =>
      (match parseStringBody [] rest with
       | some (s, r) => some (.jstr s, r)
       | none => none)
    | 't' :: 'r' :: 'u' :: 'e' :: rest => some (.jbool true, rest)
    | 'f' :: 'a' :: 'l' :: 's' :: 'e' :: rest => some (.jbool false, rest)
    | 'n' :: 'u' :: 'l' :: 'l' :: rest => some (.jnull, rest)
    | cs =>
      (match parseNumber cs with
       | some (lex, r) => some (.jnum lex, r)
       | none => none)

def parseObjStart : Nat → List Char → Option (Json × List Char)
  | 0, _ => none
  | fuel + 1, cs =>
    match cs.dropWhile jsonWs with
    | '}' :: rest => some (.jobj [], rest)
    | cs2 => parseObjItems fuel [] cs2

/-- The member loop of an object: `"key" : value` then `,` or `}`;
`acc` holds parsed members in reverse. -/
def parseObjItems : Nat → List (String × Json) → List Char → Option (Json × List Char)
  | 0, _, _ => none
  | fuel + 1, acc, cs =>
    match cs with
    | '"' :: rest =>
      (match parseStringBody [] rest with
       | some (k, r1) =>
         (match r1.dropWhile jsonWs with
          | ':' :: r2 =>
            (match parseValue fuel (r2.dropWhile jsonWs) with
             | some (v, r3) =>
               (match r3.dropWhile jsonWs with
                | ',' :: r4 => parseObjItems fuel ((k, v) :: acc) (r4.dropWhile jsonWs)
                | '}' :: r4 => some (.jobj ((k, v) :: acc).reverse, r4)
                | _ => none)
             | none => none)
          | _ => none)
       | none => none)
    | _ => none

def parseArrStart : Nat → List Char → Option (Json × List Char)
  | 0, _ => none
  | fuel + 1, cs =>
    match cs.dropWhile jsonWs with
    | ']' :: rest => some (.jarr [], rest)
    | cs2 => parseArrItems fuel [] cs2

def parseArrItems : Nat → List Json → List Char → Option (Json × List Char)
  | 0, _, _ => none
  | fuel + 1, acc, cs =>
    match parseValue fuel cs with
    | some (v, r1) =>
      (match r1.dropWhile jsonWs with
       | ',' :: r2 => parseArrItems fuel (v :: acc) (r2.dropWhile jsonWs)
       | ']' :: r2 => some (.jarr (v :: acc).reverse, r2)
       | _ => none)
    | none => none

end

/-- Model of Python `json.loads`: skip whitespace, parse one value, allow
only trailing whitespace.  The fuel `3·|s| + 3 + 1` dominates every
recursion path (at most three nested calls per consumed character). -/
def json_loads (s : String) : Option Json :=
  match parseValue (3 * s.data.length + 3 + 1) (s.data.dropWhile jsonWs) with
  | some (v, rest) => if (rest.dropWhile jsonWs).isEmpty then some v else none
  | none => none

/-- Insertion-ordered, last-wins collapse of parsed object members into a
Python dict, as `json.loads` builds it. -/
def dedupObj (kvs : List (String × Json)) : List (String × Json) :=
  kvs.foldl (fun acc p => insertD acc p.1 p.2) []

/-- Python substring test `needle in hay`. -/
def containsSub (needle : List Char) : List Char → Bool
  | [] => needle.isEmpty
  | c :: rest => needle.isPrefixOf (c :: rest) || containsSub needle rest

/-- One iteration of the extraction loop of `parse_version_json`: direct
string values are stored under the lowercased key; dicts with a `version`
key contribute that value; other dicts contribute their string-valued
sub-entries whose lowercased sub-key contains `version`. -/
def extractStep (versions : List (String × Json)) (kv : String × Json) :
    List (String × Json) :=
  match kv.2 with
  | Json.jstr s => insertD versions (pyLower kv.1) (Json.jstr s)
  | Json.jobj sub0 =>
    let sub := dedupObj sub0
    (match lookupD sub "version" with
     | some v => insertD versions (pyLower kv.1) v
     | none =>
       sub.foldl (fun versions skv =>
         match skv.2 with
         | Json.jstr sv =>
           if containsSub "version".data (pyLower skv.1).data then
             insertD versions (pyLower kv.1 ++ "_" ++ pyLower skv.1) (Json.jstr sv)
           else versions
         | _ => versions) versions)
  | _ => versions

/-- `VersionComparator.parse_version_json`, over the `json.loads` model: a
parse failure degrades to the synthetic `content` entry holding the trimmed
raw text; a non-dict top level yields the empty dict. -/
def parse_version_json (version_content : String) : List (String × Json) :=
  match json_loads version_content with
  | none => [("content", Json.jstr (String.mk (pyStrip version_content.data)))]
  | some (Json.jobj kvs) => (dedupObj kvs).foldl extractStep []
  | some _ => []

/-- One `"key": "value"` member as serialized by Python `json.dumps`. -/
def dumpsPair (p : String × String) : List Char :=
  '"' :: p.1.data ++ '"' :: ':' :: ' ' :: '"' :: p.2.data ++ ['"']

def dumpsBody : List (String × String) → List Char
  | [] => []
  | [p] => dumpsPair p
  | p :: rest => dumpsPair p ++ ',' :: ' ' :: dumpsBody rest

/-- Model of Python `json.dumps` on a flat string-to-string dict whose
characters need no escaping (default separators `", "` and `": "`). -/
def json_dumps_flat (m : List (String × String)) : String :=
  String.mk ('{' :: (dumpsBody m ++ ['}']))

/-- Characters serialized verbatim by `json.dumps` and parsed back verbatim. -/
def plainChar (c : Char) : Bool :=
  !(c == '"') && !(c == '\\') && decide (32 ≤ c.toNat)

/-- C6: on any input that fails to parse as JSON, `parse_version_json` does
not fail but returns the single synthetic entry `content` mapped to the
whitespace-trimmed input text. -/
theorem C6_content_fallback (version_content : String)
    (h : json_loads version_content = none) :
    parse_version_json version_content =
      [("content", Json.jstr (String.mk (pyStrip version_content.data)))] := by
  unfold parse_version_json
  rw [h]

/-- Witness for C6 on the non-JSON text `"not json"`. -/
theorem C6_content_fallback_witness :
    json_loads "not json" = none ∧
    parse_version_json "not json" =
      [("content", Json.jstr (String.mk (pyStrip ("not json".data))))] :=
  ⟨rfl, C6_content_fallback "not json" rfl⟩

/-- C10: on input that parses as JSON whose top level is not an object,
`parse_version_json` returns the empty map — no error and no `content`
fallback. -/
theorem C10_non_object_empty (version_content : String) (j : Json)
    (h : json_loads version_content = some j)
    (hno : ∀ kvs, j ≠ Json.jobj kvs) :
    parse_version_json version_content = [] := by
  unfold parse_version_json
  rw [h]
  cases j with
  | jobj kvs => exact absurd rfl (hno kvs)
  | jnull => rfl
  | jbool b => rfl
  | jnum r => rfl
  | jstr s => rfl
  | jarr xs => rfl

/-- Witness for C10 on the array input `"[1, 2]"`. -/
theorem C10_non_object_empty_witness :
    json_loads "[1, 2]" = some (Json.jarr [Json.jnum "1", Json.jnum "2"]) ∧
    parse_version_json "[1, 2]" = [] :=
  ⟨rfl, C10_non_object_empty "[1, 2]" (Json.jarr [Json.jnum "1", Json.jnum "2"]) rfl
    (fun kvs h => by injection h)⟩

/-! ## Round trip of `json_dumps_flat` through the parser (for C7) -/

theorem parseStringBody_cons_plain (acc : List Char) (c : Char) (rest : List Char)
    (h : plainChar c = true) :
    parseStringBody acc (c :: rest) = parseStringBody (c :: acc) rest := by
  obtain ⟨⟨h1, h2⟩, h3⟩ : (¬c = '"' ∧ ¬c = '\\') ∧ 32 ≤ c.toNat := by
    simpa [plainChar] using h
  simp [parseStringBody, h1, h2, Nat.not_lt.mpr h3]

theorem parseStringBody_plain :
    ∀ (s : List Char) (acc rest : List Char), (∀ c ∈ s, plainChar c = true) →
      parseStringBody acc (s ++ '"' :: rest) = some (String.mk (acc.reverse ++ s), rest) := by
  intro s
  induction s with
  | nil => intro acc rest _; simp [parseStringBody]
  | cons c s ih =>
    intro acc rest h
    rw [List.cons_append, parseStringBody_cons_plain _ _ _ (h c (List.mem_cons_self _ _)),
      ih _ _ (fun d hd => h d (List.mem_cons_of_mem _ hd))]
    simp

theorem parseValue_quote (f : Nat) (rest : List Char) :
    parseValue (f + 1) ('"' :: rest) =
      (match parseStringBody [] rest with
       | some (s, r) => some (Json.jstr s, r)
       | none => none) := rfl

theorem parseValue_brace (f : Nat) (rest : List Char) :
    parseValue (f + 1) ('{' :: rest) = parseObjStart f rest := rfl

theorem parseObjStart_eq (f : Nat) (cs : List Char) :
    parseObjStart (f + 1) cs =
      (match cs.dropWhile jsonWs with
       | '}' :: rest => some (.jobj [], rest)
       | cs2 => parseObjItems f [] cs2) := rfl

theorem parseObjItems_quote (f : Nat) (acc : List (String × Json)) (rest : List Char) :
    parseObjItems (f + 1) acc ('"' :: rest) =
      (match parseStringBody [] rest with
       | some (k, r1) =>
         (match r1.dropWhile jsonWs with
          | ':' :: r2 =>
            (match parseValue f (r2.dropWhile jsonWs) with
             | some (v, r3) =>
               (match r3.dropWhile jsonWs with
                | ',' :: r4 => parseObjItems f ((k, v) :: acc) (r4.dropWhile jsonWs)
                | '}' :: r4 => some (.jobj ((k, v) :: acc).reverse, r4)
                | _ => none)
             | none => none)
          | _ => none)
       | none => none) := rfl

theorem parseValue_str (fuel : Nat) (hf : 1 ≤ fuel) (s rest : List Char)
    (h : ∀ c ∈ s, plainChar c = true) :
    parseValue fuel ('"' :: (s ++ '"' :: rest)) =
      some (Json.jstr (String.mk s), rest) := by
  obtain ⟨f, rfl⟩ : ∃ f, fuel = f + 1 := ⟨fuel - 1, by omega⟩
  rw [parseValue_quote, parseStringBody_plain s [] rest h]
  simp

theorem dumpsBody_cons (q : String × String) (m : List (String × String)) :
    ∃ t, dumpsBody (q :: m) = '"' :: t := by
  cases m with
  | nil =>
    refine ⟨q.1.data ++ '"' :: ':' :: ' ' :: '"' :: (q.2.data ++ ['"']), ?_⟩
    simp [dumpsBody, dumpsPair]
  | cons r m =>
    refine ⟨q.1.data ++ '"' :: ':' :: ' ' :: '"' ::
      (q.2.data ++ '"' :: ',' :: ' ' :: dumpsBody (r :: m)), ?_⟩
    simp [dumpsBody, dumpsPair]

theorem dumpsBody_length : ∀ m : List (String × String), m.length ≤ (dumpsBody m).length := by
  intro m
  induction m with
  | nil => simp [dumpsBody]
  | cons p m ih =>
    cases m with
    | nil => simp [dumpsBody, dumpsPair]
    | cons q m2 =>
      have hlen : (dumpsBody (p :: q :: m2)).length =
          (dumpsPair p).length + 2 + (dumpsBody (q :: m2)).length := by
        simp [dumpsBody]
        omega
      simp only [List.length_cons] at ih ⊢
      omega

/-- The member loop consumes exactly the serialized members of a flat
string map with unescaped characters. -/
theorem parseObjItems_dumps :
    ∀ (m : List (String × String)) (p : String × String) (acc : List (String × Json))
      (rest : List Char) (fuel : Nat),
      2 * m.length + 2 ≤ fuel →
      (∀ q ∈ p :: m, (∀ c ∈ q.1.data, plainChar c = true) ∧
        (∀ c ∈ q.2.data, plainChar c = true)) →
      parseObjItems fuel acc (dumpsBody (p :: m) ++ '}' :: rest) =
        some (Json.jobj (acc.reverse ++ (p :: m).map (fun q => (q.1, Json.jstr q.2))),
          rest) := by
  intro m
  induction m with
  | nil =>
    intro p acc rest fuel hfuel hplain
    obtain ⟨f, rfl⟩ : ∃ f, fuel = f + 1 := ⟨fuel - 1, by omega⟩
    have hp := hplain p (List.mem_cons_self _ _)
    have hshape : dumpsBody [p] ++ '}' :: rest =
        '"' :: (p.1.data ++ '"' :: (':' :: ' ' :: '"' :: (p.2.data ++ '"' :: '}' :: rest))) := by
      simp [dumpsBody, dumpsPair]
    rw [hshape, parseObjItems_quote, parseStringBody_plain _ _ _ hp.1]
    simp only [List.reverse_nil, List.nil_append]
    have hv := parseValue_str f (by omega) p.2.data ('}' :: rest) hp.2
    simp [jsonWs, hv]
  | cons q m ih =>
    intro p acc rest fuel hfuel hplain
    obtain ⟨f, rfl⟩ : ∃ f, fuel = f + 1 := ⟨fuel - 1, by omega⟩
    have hp := hplain p (List.mem_cons_self _ _)
    have hshape : dumpsBody (p :: q :: m) ++ '}' :: rest =
        '"' :: (p.1.data ++ '"' :: (':' :: ' ' :: '"' :: (p.2.data ++
          '"' :: ',' :: ' ' :: (dumpsBody (q :: m) ++ '}' :: rest)))) := by
      simp [dumpsBody, dumpsPair]
    rw [hshape, parseObjItems_quote, parseStringBody_plain _ _ _ hp.1]
    simp only [List.reverse_nil, List.nil_append]
    have hv := parseValue_str f (by omega) p.2.data
      (',' :: ' ' :: (dumpsBody (q :: m) ++ '}' :: rest)) hp.2
    obtain ⟨t, ht⟩ := dumpsBody_cons q m
    have hdrop : (' ' :: (dumpsBody (q :: m) ++ '}' :: rest)).dropWhile jsonWs =
        dumpsBody (q :: m) ++ '}' :: rest := by
      rw [ht]
      simp [jsonWs]
    have hrec := ih q ((String.mk p.1.data, Json.jstr (String.mk p.2.data)) :: acc)
      rest f (by simp at hfuel ⊢; omega)
      (fun r hr => hplain r (List.mem_cons_of_mem _ hr))
    simp [jsonWs, hv, hdrop, hrec]

/-- `json.loads` inverts `json.dumps` on a flat string map with unescaped
characters. -/
theorem json_loads_dumps (m : List (String × String))
    (hplain : ∀ q ∈ m, (∀ c ∈ q.1.data, plainChar c = true) ∧
      (∀ c ∈ q.2.data, plainChar c = true)) :
    json_loads (json_dumps_flat m) =
      some (Json.jobj (m.map (fun q => (q.1, Json.jstr q.2)))) := by
  have hdata : (json_dumps_flat m).data = '{' :: (dumpsBody m ++ ['}']) := rfl
  unfold json_loads
  rw [hdata]
  have hdropb : ('{' :: (dumpsBody m ++ ['}'])).dropWhile jsonWs =
      '{' :: (dumpsBody m ++ ['}']) := by
    simp [jsonWs]
  rw [hdropb, parseValue_brace]
  obtain ⟨g, hg⟩ : ∃ g, 3 * ('{' :: (dumpsBody m ++ ['}'])).length + 3 = g + 1 :=
    ⟨3 * ('{' :: (dumpsBody m ++ ['}'])).length + 2, by omega⟩
  rw [hg, parseObjStart_eq]
  cases m with
  | nil =>
    simp [dumpsBody, jsonWs]
  | cons p m2 =>
    obtain ⟨t, ht⟩ := dumpsBody_cons p m2
    have hlenb := dumpsBody_length (p :: m2)
    have hobj := parseObjItems_dumps m2 p [] [] g
      (by
        simp only [List.length_cons, List.length_append, List.length_singleton] at hg
        simp only [List.length_cons] at hlenb
        omega) hplain
    have hdrop2 : (dumpsBody (p :: m2) ++ ['}']).dropWhile jsonWs =
        dumpsBody (p :: m2) ++ ['}'] := by
      rw [ht]
      simp [jsonWs]
    rw [hdrop2]
    rw [show (dumpsBody (p :: m2) ++ ['}'] : List Char) = '"' :: (t ++ ['}']) from by
      rw [ht]
      simp]
    rw [ht] at hobj
    simp only [List.cons_append] at hobj
    simp [hobj]

/-- Folding `insertD` over fresh, distinct keys appends them in order. -/
theorem foldl_insertD_fresh {α : Type} :
    ∀ (l : List (String × α)) (acc : List (String × α)),
      (keysD l).Nodup → (∀ k ∈ keysD l, k ∉ keysD acc) →
      l.foldl (fun a p => insertD a p.1 p.2) acc = acc ++ l := by
  intro l
  induction l with
  | nil => intro acc _ _; simp
  | cons p t ih =>
    intro acc hnodup hfresh
    have hcons := List.nodup_cons.mp (show (p.1 :: keysD t).Nodup from hnodup)
    have hstep : insertD acc p.1 p.2 = acc ++ [p] :=
      insertD_of_not_mem _ (hfresh p.1 (by simp [keysD]))
    rw [List.foldl_cons, hstep, ih _ hcons.2 ?_]
    · simp
    · intro k hk
      rw [keysD_append]
      simp only [List.mem_append]
      rintro (h | h)
      · exact hfresh k (by simp [keysD] at hk ⊢; exact Or.inr hk) h
      · have : k = p.1 := by simpa [keysD] using h
        exact hcons.1 (this ▸ hk)

/-- A parsed object with distinct keys is its own dict. -/
theorem dedupObj_nodup (l : List (String × Json)) (h : (keysD l).Nodup) :
    dedupObj l = l := by
  unfold dedupObj
  rw [foldl_insertD_fresh l [] h (by simp [keysD])]
  simp

/-- The extraction loop over direct-string entries with lowercase keys is the
identity embedding. -/
theorem extract_fold_strings :
    ∀ (l : List (String × Json)) (acc : List (String × Json)),
      (∀ p ∈ l, ∃ s, p.2 = Json.jstr s) →
      (∀ p ∈ l, pyLower p.1 = p.1) →
      (∀ k ∈ keysD l, k ∉ keysD acc) →
      (keysD l).Nodup →
      l.foldl extractStep acc = acc ++ l := by
  intro l
  induction l with
  | nil => intro acc _ _ _ _; simp
  | cons p t ih =>
    intro acc hstr hlower hfresh hnodup
    have hcons := List.nodup_cons.mp (show (p.1 :: keysD t).Nodup from hnodup)
    obtain ⟨s, hs⟩ := hstr p (List.mem_cons_self _ _)
    have hstep : extractStep acc p = acc ++ [p] := by
      unfold extractStep
      rw [hs, hlower p (List.mem_cons_self _ _)]
      show insertD acc p.1 (Json.jstr s) = acc ++ [p]
      rw [insertD_of_not_mem _ (hfresh p.1 (by simp [keysD]))]
      rw [show ((p.1, Json.jstr s) : String × Json) = p from by rw [← hs]]
    rw [List.foldl_cons, hstep, ih _ (fun q hq => hstr q (List.mem_cons_of_mem _ hq))
      (fun q hq => hlower q (List.mem_cons_of_mem _ hq)) ?_ hcons.2]
    · simp
    · intro k hk
      rw [keysD_append]
      simp only [List.mem_append]
      rintro (h | h)
      · exact hfresh k (by simp [keysD] at hk ⊢; exact Or.inr hk) h
      · have : k = p.1 := by simpa [keysD] using h
        exact hcons.1 (this ▸ hk)

/-- C7 counterexample: the claim fails as stated, because
`parse_version_json` lowercases keys.  Serializing the flat map
`{"A": "v"}` and parsing it back yields `{"a": "v"}`, not the original. -/
theorem C7_counterexample :
    parse_version_json (json_dumps_flat [("A", "v")]) ≠ [("A", Json.jstr "v")] ∧
    parse_version_json (json_dumps_flat [("A", "v")]) = [("a", Json.jstr "v")] := by
  constructor
  · intro h
    have e : parse_version_json (json_dumps_flat [("A", "v")]) =
        [("a", Json.jstr "v")] := rfl
    rw [e] at h
    have hkey : "a" = "A" := congrArg (fun l => (l.headD ("", Json.jnull)).1) h
    exact absurd hkey (by decide)
  · rfl

/-- C7 (amended): serializing a flat string-to-string map whose keys are
already lowercase (and whose characters need no JSON escaping) and parsing
the text back with `parse_version_json` reproduces the map unchanged. -/
theorem C7_roundtrip_lowercase (m : List (String × String))
    (hnodup : (keysD m).Nodup)
    (hlower : ∀ p ∈ m, pyLower p.1 = p.1)
    (hplain : ∀ q ∈ m, (∀ c ∈ q.1.data, plainChar c = true) ∧
      (∀ c ∈ q.2.data, plainChar c = true)) :
    parse_version_json (json_dumps_flat m) =
      m.map (fun q => (q.1, Json.jstr q.2)) := by
  unfold parse_version_json
  rw [json_loads_dumps m hplain]
  show (dedupObj (m.map (fun q => (q.1, Json.jstr q.2)))).foldl extractStep [] =
    m.map (fun q => (q.1, Json.jstr q.2))
  have hkeys : keysD (m.map (fun q => (q.1, Json.jstr q.2))) = keysD m := by
    simp [keysD]
  have hnodup2 : (keysD (m.map (fun q => (q.1, Json.jstr q.2)))).Nodup := by
    rw [hkeys]
    exact hnodup
  rw [dedupObj_nodup _ hnodup2,
    extract_fold_strings _ [] ?_ ?_ (by simp [keysD]) hnodup2]
  · simp
  · intro p hp
    obtain ⟨q, _, rfl⟩ := List.mem_map.mp hp
    exact ⟨q.2, rfl⟩
  · intro p hp
    obtain ⟨q, hq, rfl⟩ := List.mem_map.mp hp
    exact hlower q hq

/-- Witness for the amended C7 on the lowercase map `{"appcd": "v1"}`. -/
theorem C7_roundtrip_lowercase_witness :
    ((keysD [("appcd", "v1")]).Nodup ∧
      (∀ p ∈ [("appcd", "v1")], pyLower p.1 = p.1)) ∧
    parse_version_json (json_dumps_flat [("appcd", "v1")]) =
      [("appcd", Json.jstr "v1")] :=
  ⟨⟨by decide, by decide⟩,
    C7_roundtrip_lowercase [("appcd", "v1")] (by decide) (by decide)
      (by decide)⟩

/-! ## tags-diff/fetchTicketChangesInBuildsForRepo.py: LinearTicketExtractor

The ticket pattern `\[([A-Z]{2,6}-\d{1,6})\]` is embedded as an anchored
matcher; its bounded greedy repetitions are deterministic, because every
shorter candidate run is followed by another character of the same class.
`re.findall` is the left-to-right non-overlapping scan. -/

/-- One anchored attempt of the ticket regex at the current position,
returning the captured group and the remainder after the closing bracket. -/
def tryTicket : List Char → Option (List Char × List Char)
  | [] => none
  | c :: rest =>
    if c = '[' then
      let letters := rest.takeWhile Char.isUpper
      if 2 ≤ letters.length ∧ letters.length ≤ 6 then
        match rest.dropWhile Char.isUpper with
        | '-' :: r2 =>
          let ds := r2.takeWhile Char.isDigit
          if 1 ≤ ds.length ∧ ds.length ≤ 6 then
            match r2.dropWhile Char.isDigit with
            | ']' :: r4 => some (letters ++ '-' :: ds, r4)
            | _ => none
          else none
        | _ => none
      else none
    else none

/-- `re.findall`: non-overlapping matches, scanning left to right; on a
failed attempt the scan advances one character. -/
def findTickets : Nat → List Char → List (List Char)
  | 0, _ => []
  | _, [] => []
  | fuel + 1, c :: rest =>
    match tryTicket (c :: rest) with
    | some (t, r) => t :: findTickets fuel r
    | none => findTickets fuel rest

/-- `LinearTicketExtractor.extract_tickets_from_text`: the deduplicated
matches (a Python set, used through membership). -/
def extract_tickets_from_text (text : String) : List String :=
  ((findTickets (text.data.length + 1) text.data).map String.mk).dedup

/-- The shape captured by the ticket pattern: 2–6 uppercase letters, a
hyphen, 1–6 digits. -/
def WellFormedTicket (t : List Char) : Prop :=
  ∃ ls ds, t = ls ++ '-' :: ds ∧ (∀ c ∈ ls, c.isUpper = true) ∧
    2 ≤ ls.length ∧ ls.length ≤ 6 ∧
    (∀ c ∈ ds, c.isDigit = true) ∧ 1 ≤ ds.length ∧ ds.length ≤ 6

theorem takeWhile_append_not (p : Char → Bool) :
    ∀ (a : List Char) (b : List Char), (∀ c ∈ a, p c = true) →
      (∀ c, b.head? = some c → p c = false) →
      (a ++ b).takeWhile p = a ∧ (a ++ b).dropWhile p = b := by
  intro a
  induction a with
  | nil =>
    intro b _ hb
    cases b with
    | nil => simp [List.takeWhile, List.dropWhile]
    | cons c b2 =>
      have := hb c rfl
      simp [List.takeWhile_cons, List.dropWhile_cons, this]
  | cons x a ih =>
    intro b ha hb
    have hx := ha x (List.mem_cons_self _ _)
    have hrest := ih b (fun c hc => ha c (List.mem_cons_of_mem _ hc)) hb
    simp [List.takeWhile_cons, List.dropWhile_cons, hx, hrest.1, hrest.2]

theorem tryTicket_some {cs t r : List Char} (h : tryTicket cs = some (t, r)) :
    WellFormedTicket t ∧ cs = '[' :: (t ++ ']' :: r) := by
  cases cs with
  | nil => simp [tryTicket] at h
  | cons c rest =>
    by_cases hc : c = '['
    · subst hc
      rw [tryTicket] at h
      rw [if_pos rfl] at h
      by_cases hlen : 2 ≤ (rest.takeWhile Char.isUpper).length ∧
          (rest.takeWhile Char.isUpper).length ≤ 6
      · rw [if_pos hlen] at h
        cases hr1 : rest.dropWhile Char.isUpper with
        | nil => rw [hr1] at h; simp at h
        | cons d r2 =>
          rw [hr1] at h
          by_cases hd : d = '-'
          · subst hd
            simp only [] at h
            by_cases hds : 1 ≤ (r2.takeWhile Char.isDigit).length ∧
                (r2.takeWhile Char.isDigit).length ≤ 6
            · rw [if_pos hds] at h
              cases hr3 : r2.dropWhile Char.isDigit with
              | nil => rw [hr3] at h; simp at h
              | cons e r4 =>
                rw [hr3] at h
                by_cases he : e = ']'
                · subst he
                  simp only [Option.some.injEq, Prod.mk.injEq] at h
                  obtain ⟨rfl, rfl⟩ := h
                  constructor
                  · refine ⟨rest.takeWhile Char.isUpper, r2.takeWhile Char.isDigit,
                      rfl, ?_, hlen.1, hlen.2, ?_, hds.1, hds.2⟩
                    · exact fun c hc => List.mem_takeWhile_imp hc
                    · exact fun c hc => List.mem_takeWhile_imp hc
                  · have e1 : rest = rest.takeWhile Char.isUpper ++ ('-' :: r2) := by
                      rw [← hr1, List.takeWhile_append_dropWhile]
                    have e2 : r2 = r2.takeWhile Char.isDigit ++ (']' :: r4) := by
                      rw [← hr3, List.takeWhile_append_dropWhile]
                    rw [List.cons.injEq]
                    refine ⟨rfl, ?_⟩
                    set tu := rest.takeWhile Char.isUpper with htu
                    set td := r2.takeWhile Char.isDigit with htd
                    conv_lhs => rw [e1]
                    rw [e2]
                    simp
                · simp [he] at h
            · rw [if_neg hds] at h
              simp at h
          · simp [hd] at h
      · rw [if_neg hlen] at h
        simp at h
    · rw [tryTicket, if_neg hc] at h
      simp at h

theorem tryTicket_of_wf {t : List Char} (r : List Char) (h : WellFormedTicket t) :
    tryTicket ('[' :: (t ++ ']' :: r)) = some (t, r) := by
  obtain ⟨ls, ds, rfl, hup, h2, h6, hdig, hd1, hd6⟩ := h
  have hsh : (ls ++ '-' :: ds) ++ ']' :: r = ls ++ '-' :: (ds ++ ']' :: r) := by simp
  have htw1 := takeWhile_append_not Char.isUpper ls ('-' :: (ds ++ ']' :: r)) hup
    (by intro c hc; injection hc with hc; rw [← hc]; decide)
  have htw2 := takeWhile_append_not Char.isDigit ds (']' :: r) hdig
    (by intro c hc; injection hc with hc; rw [← hc]; decide)
  rw [tryTicket, if_pos rfl, hsh, htw1.1, htw1.2]
  rw [if_pos ⟨h2, h6⟩]
  simp only [htw2.1, htw2.2]
  rw [if_pos ⟨hd1, hd6⟩]

theorem wf_not_mem {t : List Char} (h : WellFormedTicket t) :
    '[' ∉ t ∧ ']' ∉ t := by
  obtain ⟨ls, ds, rfl, hup, _, _, hdig, _, _⟩ := h
  constructor <;>
  · intro hmem
    rcases List.mem_append.mp hmem with hm | hm
    · have := hup _ hm
      simp at this
    · rcases List.mem_cons.mp hm with hm2 | hm2
      · exact absurd hm2 (by decide)
      · have := hdig _ hm2
        simp at this

theorem prefix_ticket_eq :
    ∀ (t t' : List Char) {u v : List Char}, ']' ∉ t → ']' ∉ t' →
      (t ++ ']' :: u) <+: (t' ++ ']' :: v) → t = t' := by
  intro t
  induction t with
  | nil =>
    intro t' u v _ ht' h
    cases t' with
    | nil => rfl
    | cons b t2 =>
      rw [List.nil_append, List.cons_append] at h
      have := (List.cons_prefix_cons.mp h).1
      exact absurd (this ▸ List.mem_cons_self b t2) ht'
  | cons a t2 ih =>
    intro t' u v ht ht' h
    cases t' with
    | nil =>
      rw [List.cons_append, List.nil_append] at h
      have := (List.cons_prefix_cons.mp h).1
      exact absurd (this ▸ List.mem_cons_self a t2) ht
    | cons b t2' =>
      rw [List.cons_append, List.cons_append] at h
      obtain ⟨hab, htl⟩ := List.cons_prefix_cons.mp h
      have := ih t2' (fun hm => ht (List.mem_cons_of_mem _ hm))
        (fun hm => ht' (List.mem_cons_of_mem _ hm)) htl
      rw [hab, this]

theorem infix_after {x : List Char} :
    ∀ (l : List Char) {r : List Char}, '[' ∉ l → ('[' :: x) <:+: (l ++ r) →
      ('[' :: x) <:+: r := by
  intro l
  induction l with
  | nil => intro r _ h; simpa using h
  | cons b l ih =>
    intro r hl h
    rw [List.cons_append] at h
    rcases List.infix_cons_iff.mp h with hp | hi
    · have := (List.cons_prefix_cons.mp hp).1
      exact absurd (this ▸ List.mem_cons_self b l) hl
    · exact ih (fun hm => hl (List.mem_cons_of_mem _ hm)) hi

/-- The scan finds exactly the well-formed bracketed tickets. -/
theorem findTickets_mem :
    ∀ (fuel : Nat) (cs : List Char), cs.length ≤ fuel →
      ∀ t, t ∈ findTickets fuel cs ↔
        (WellFormedTicket t ∧ ('[' :: (t ++ [']'])) <:+: cs) := by
  intro fuel
  induction fuel with
  | zero =>
    intro cs hcs t
    have : cs = [] := List.eq_nil_of_length_eq_zero (Nat.le_zero.mp hcs)
    subst this
    simp [findTickets]
  | succ fuel ih =>
    intro cs hcs t
    cases cs with
    | nil =>
      simp [findTickets]
    | cons c rest =>
      rw [findTickets]
      cases htry : tryTicket (c :: rest) with
      | some tr =>
        obtain ⟨t', r⟩ := tr
        obtain ⟨hwf', hshape⟩ := tryTicket_some htry
        injection hshape with hc hrest
        subst hc
        subst hrest
        have hlr : r.length ≤ fuel := by
          simp only [List.length_cons, List.length_append] at hcs
          omega
        constructor
        · intro h
          rcases List.mem_cons.mp h with rfl | hmem
          · refine ⟨hwf', ⟨[], r, ?_⟩⟩
            simp
          · obtain ⟨hwf, hinf⟩ := (ih r hlr t).mp hmem
            refine ⟨hwf, hinf.trans ⟨'[' :: (t' ++ [']']), [], ?_⟩⟩
            simp
        · rintro ⟨hwf, hinf⟩
          rcases List.infix_cons_iff.mp hinf with hp | hi
          · obtain ⟨-, hp2⟩ := List.cons_prefix_cons.mp hp
            have := prefix_ticket_eq t t' (wf_not_mem hwf).2 (wf_not_mem hwf').2 hp2
            exact this ▸ List.mem_cons_self _ _
          · have hsplit : t' ++ ']' :: r = (t' ++ [']']) ++ r := by simp
            rw [hsplit] at hi
            have hnb : '[' ∉ t' ++ [']'] := by
              intro hm
              rcases List.mem_append.mp hm with hm | hm
              · exact (wf_not_mem hwf').1 hm
              · exact absurd (List.mem_singleton.mp hm) (by decide)
            have := infix_after _ hnb hi
            exact List.mem_cons_of_mem _ ((ih r hlr t).mpr ⟨hwf, this⟩)
      | none =>
        have hlrest : rest.length ≤ fuel := by
          simp only [List.length_cons] at hcs
          omega
        constructor
        · intro hmem
          obtain ⟨hwf, hinf⟩ := (ih rest hlrest t).mp hmem
          exact ⟨hwf, List.infix_cons hinf⟩
        · rintro ⟨hwf, hinf⟩
          rcases List.infix_cons_iff.mp hinf with hp | hi
          · obtain ⟨w, hw⟩ := hp
            have hw2 : c :: rest = '[' :: (t ++ ']' :: w) := by
              rw [← hw]
              simp
            have := tryTicket_of_wf w hwf
            rw [← hw2] at this
            rw [this] at htry
            cases htry
          · exact (ih rest hlrest t).mpr ⟨hwf, hi⟩

/-- C5: ticket extraction returns, without ever failing, exactly the
deduplicated set of well-formed `PREFIX-NUMBER` substrings appearing in
square brackets; a text with no such bracketed substring yields the empty
set; and the spec's example yields exactly {AB-123, ABCD-4567}. -/
theorem C5_extract_tickets (text : String) :
    (∀ s : String, s ∈ extract_tickets_from_text text ↔
      (WellFormedTicket s.data ∧ ('[' :: (s.data ++ [']'])) <:+: text.data)) ∧
    (extract_tickets_from_text text).Nodup ∧
    ((¬∃ t : List Char, WellFormedTicket t ∧ ('[' :: (t ++ [']'])) <:+: text.data) →
      extract_tickets_from_text text = []) ∧
    ("AB-123" ∈ extract_tickets_from_text
        "fix: resolve issue [AB-123] and [ABCD-4567] duplicate [AB-123]" ∧
     "ABCD-4567" ∈ extract_tickets_from_text
        "fix: resolve issue [AB-123] and [ABCD-4567] duplicate [AB-123]" ∧
     ∀ s ∈ extract_tickets_from_text
        "fix: resolve issue [AB-123] and [ABCD-4567] duplicate [AB-123]",
       s = "AB-123" ∨ s = "ABCD-4567") := by
  have hmem : ∀ s : String, s ∈ extract_tickets_from_text text ↔
      (WellFormedTicket s.data ∧ ('[' :: (s.data ++ [']'])) <:+: text.data) := by
    intro s
    unfold extract_tickets_from_text
    rw [List.mem_dedup, List.mem_map]
    constructor
    · rintro ⟨t, ht, rfl⟩
      exact (findTickets_mem _ _ (by omega) t).mp ht
    · rintro ⟨hwf, hinf⟩
      exact ⟨s.data, (findTickets_mem _ _ (by omega) s.data).mpr ⟨hwf, hinf⟩, rfl⟩
  refine ⟨hmem, List.nodup_dedup _, ?_, by decide, by decide, by decide⟩
  intro hno
  by_contra hne
  obtain ⟨s, hs⟩ := List.exists_mem_of_ne_nil _ hne
  exact hno ⟨s.data, (hmem s).mp hs⟩

/-- Witness for C5 at the spec's example text and the ticket `AB-123`. -/
theorem C5_extract_tickets_witness :
    ("AB-123" ∈ extract_tickets_from_text
      "fix: resolve issue [AB-123] and [ABCD-4567] duplicate [AB-123]") ∧
    (WellFormedTicket ("AB-123".data) ∧ ('[' :: ("AB-123".data ++ [']'])) <:+:
      ("fix: resolve issue [AB-123] and [ABCD-4567] duplicate [AB-123]".data)) :=
  ⟨by decide,
    ((C5_extract_tickets
      "fix: resolve issue [AB-123] and [ABCD-4567] duplicate [AB-123]").1
      "AB-123").mp (by decide)⟩

end ReleaseUtils
